import Mathlib

/-! Saturating addition over unsigned ranges: `src/main.cpp`

A shallow embedding of `src/main.cpp`.  The program compares the range library's
`uadd_sat` with a hand-written `decomposedUaddSat` over every pair of ranges
that `getConstantRangesForBitwidth` enumerates.

The range type (`llvm::APInt`, `llvm::ConstantRange`) is library code that the
program only includes; it is modelled here from §3/§4.1/§4.2 of the
specification, following the library's half-open `[Lower, Upper)` representation
with `Lower = Upper = 0` for the empty set and `Lower = Upper = 2^w - 1` for the
full set.  Machine integers are natural numbers reduced modulo `2^32` or `2^64`
at every place where the C++ code can overflow.
-/

set_option autoImplicit false

/-! ## Fixed-width unsigned integers -/

/-- Modelled from the spec: the fixed-width unsigned integer `llvm::APInt`
(library type, not under `src/`): a bit width and a value below `2 ^ BitWidth`. -/
structure APInt where
  BitWidth : Nat
  VAL : Nat
deriving DecidableEq, Repr

/-- Modelled from the spec: the constructor `APInt(numBits, val)` (library code);
the value is stored in `numBits` bits, higher bits are dropped. -/
def mkAPInt (numBits val : Nat) : APInt := ⟨numBits, val % 2 ^ numBits⟩

namespace APInt

/-- Modelled from the spec: `getBitWidth()` of the library integer. -/
def getBitWidth (x : APInt) : Nat := x.BitWidth

/-- Modelled from the spec: `getZExtValue()` of the library integer, the value as
an unsigned 64-bit number (all widths in the program are at most 33). -/
def getZExtValue (x : APInt) : Nat := x.VAL

/-- Modelled from the spec: `APInt::getMaxValue(w)`, the value `2^w - 1`. -/
def getMaxValue (numBits : Nat) : APInt := ⟨numBits, 2 ^ numBits - 1⟩

/-- Modelled from the spec: `APInt::getMinValue(w)`, the value `0`. -/
def getMinValue (numBits : Nat) : APInt := ⟨numBits, 0⟩

/-- Modelled from the spec: `isMaxValue()`, all bits set. -/
def isMaxValue (x : APInt) : Prop := x.VAL = 2 ^ x.BitWidth - 1

/-- Modelled from the spec: `isMinValue()`, the value is zero. -/
def isMinValue (x : APInt) : Prop := x.VAL = 0

instance (x : APInt) : Decidable x.isMaxValue := by unfold isMaxValue; infer_instance
instance (x : APInt) : Decidable x.isMinValue := by unfold isMinValue; infer_instance

/-- Modelled from the spec: wrapping addition `a + b` of two library integers of
one width. -/
def add (a b : APInt) : APInt := ⟨a.BitWidth, (a.VAL + b.VAL) % 2 ^ a.BitWidth⟩

/-- Modelled from the spec: wrapping subtraction `a - b` of two library integers
of one width. -/
def sub (a b : APInt) : APInt :=
  ⟨a.BitWidth, (a.VAL + (2 ^ a.BitWidth - b.VAL % 2 ^ a.BitWidth)) % 2 ^ a.BitWidth⟩

/-- Modelled from the spec: `a + 1`, wrapping at the bit width. -/
def succ (a : APInt) : APInt := ⟨a.BitWidth, (a.VAL + 1) % 2 ^ a.BitWidth⟩

/-- Modelled from the spec: `a - 1`, wrapping at the bit width. -/
def pred (a : APInt) : APInt := ⟨a.BitWidth, (a.VAL + (2 ^ a.BitWidth - 1)) % 2 ^ a.BitWidth⟩

/-- Modelled from the spec: `saturate(a + b)` of §4.2, the scalar `APInt::uadd_sat`:
the sum computed without reduction, then clamped to `2^w - 1`. -/
def uadd_sat (a b : APInt) : APInt :=
  if a.VAL + b.VAL < 2 ^ a.BitWidth then ⟨a.BitWidth, a.VAL + b.VAL⟩ else getMaxValue a.BitWidth

end APInt

/-! ## The range domain -/

/-- Modelled from the spec: the range of §3, `llvm::ConstantRange` (library type,
not under `src/`): the half-open interval `[Lower, Upper)` modulo `2^w`. -/
structure ConstantRange where
  Lower : APInt
  Upper : APInt
deriving DecidableEq, Repr

namespace ConstantRange

/-- Modelled from the spec: `getLower()` of the library range. -/
def getLower (r : ConstantRange) : APInt := r.Lower

/-- Modelled from the spec: `getUpper()` of the library range. -/
def getUpper (r : ConstantRange) : APInt := r.Upper

/-- Modelled from the spec: `getBitWidth()` of the library range. -/
def getBitWidth (r : ConstantRange) : Nat := r.Lower.BitWidth

/-- Modelled from the spec: `empty(w)` of §4.1, the library's `getEmpty`. -/
def getEmpty (w : Nat) : ConstantRange := ⟨APInt.getMinValue w, APInt.getMinValue w⟩

/-- Modelled from the spec: `full(w)` of §4.1, the library's `getFull`. -/
def getFull (w : Nat) : ConstantRange := ⟨APInt.getMaxValue w, APInt.getMaxValue w⟩

/-- Modelled from the spec: the single-value range `ConstantRange(V)` = `[V, V+1)`. -/
def single (V : APInt) : ConstantRange := ⟨V, V.succ⟩

/-- Modelled from the spec: `isFullSet()`, equal bounds at the maximum value. -/
def isFullSet (r : ConstantRange) : Prop := r.Lower.VAL = r.Upper.VAL ∧ r.Lower.isMaxValue

/-- Modelled from the spec: `isEmptySet()`, equal bounds at zero. -/
def isEmptySet (r : ConstantRange) : Prop := r.Lower.VAL = r.Upper.VAL ∧ r.Lower.isMinValue

/-- Modelled from the spec: `isWrappedSet()`, the interval runs across `2^w` and
continues from zero. -/
def isWrappedSet (r : ConstantRange) : Prop := r.Upper.VAL < r.Lower.VAL ∧ r.Upper.VAL ≠ 0

/-- Modelled from the spec: `isUpperWrapped()`, the upper bound is numerically below
the lower bound (this includes `[lo, 0)`, which denotes `lo .. 2^w - 1`). -/
def isUpperWrapped (r : ConstantRange) : Prop := r.Upper.VAL < r.Lower.VAL

instance (r : ConstantRange) : Decidable r.isFullSet := by unfold isFullSet; infer_instance
instance (r : ConstantRange) : Decidable r.isEmptySet := by unfold isEmptySet; infer_instance
instance (r : ConstantRange) : Decidable r.isWrappedSet := by unfold isWrappedSet; infer_instance
instance (r : ConstantRange) : Decidable r.isUpperWrapped := by
  unfold isUpperWrapped; infer_instance

/-- Modelled from the spec: `getNonEmpty(L, U)`, the range `[L, U)` where equal
bounds stand for the full set (§4.1 `makeRange(w, lo, lo)`). -/
def getNonEmpty (L U : APInt) : ConstantRange :=
  if L.VAL = U.VAL then getFull L.BitWidth else ⟨L, U⟩

/-- Modelled from the spec: `unsignedMax()` of §4.1, the library's `getUnsignedMax`. -/
def getUnsignedMax (r : ConstantRange) : APInt :=
  if r.isFullSet ∨ r.isUpperWrapped then APInt.getMaxValue r.getBitWidth else r.getUpper.pred

/-- Modelled from the spec: `unsignedMin()` of §4.1, the library's `getUnsignedMin`. -/
def getUnsignedMin (r : ConstantRange) : APInt :=
  if r.isFullSet ∨ r.isWrappedSet then APInt.getMinValue r.getBitWidth else r.getLower

/-- Modelled from the spec: membership of a value in the set a range denotes (§3),
the library's `contains`. -/
def contains (r : ConstantRange) (V : APInt) : Prop :=
  if r.Lower.VAL = r.Upper.VAL then r.isFullSet
  else if ¬ r.isUpperWrapped then r.Lower.VAL ≤ V.VAL ∧ V.VAL < r.Upper.VAL
  else r.Lower.VAL ≤ V.VAL ∨ V.VAL < r.Upper.VAL

instance (r : ConstantRange) (V : APInt) : Decidable (r.contains V) := by
  unfold contains; infer_instance

/-- Modelled from the spec: `isSizeStrictlySmallerThan`, the comparison of set sizes
that the library's `add` uses to detect a sum that covers every value. -/
def isSizeStrictlySmallerThan (r Other : ConstantRange) : Prop :=
  if r.isFullSet then False
  else if Other.isFullSet then True
  else (r.Upper.sub r.Lower).VAL < (Other.Upper.sub Other.Lower).VAL

instance (r Other : ConstantRange) : Decidable (r.isSizeStrictlySmallerThan Other) := by
  unfold isSizeStrictlySmallerThan; infer_instance

/-- Modelled from the spec: `add(other)` of §4.1, the library's wrapping addition of
two ranges of one width. -/
def add (r Other : ConstantRange) : ConstantRange :=
  if r.isEmptySet ∨ Other.isEmptySet then getEmpty r.getBitWidth
  else if r.isFullSet ∨ Other.isFullSet then getFull r.getBitWidth
  else
    let NewLower := r.getLower.add Other.getLower
    let NewUpper := (r.getUpper.add Other.getUpper).pred
    if NewLower.VAL = NewUpper.VAL then getFull r.getBitWidth
    else
      let X : ConstantRange := ⟨NewLower, NewUpper⟩
      if X.isSizeStrictlySmallerThan r ∨ X.isSizeStrictlySmallerThan Other then
        getFull r.getBitWidth
      else X

/-- Modelled from the spec: `DirectSat` of §4.2, the library's `uadd_sat` that the
harness calls as the reference: empty if an input is empty, otherwise built from
`saturate(min + min)` and `saturate(max + max) + 1`. -/
def uadd_sat (r Other : ConstantRange) : ConstantRange :=
  if r.isEmptySet ∨ Other.isEmptySet then getEmpty r.getBitWidth
  else
    let NewL := r.getUnsignedMin.uadd_sat Other.getUnsignedMin
    let NewU := (r.getUnsignedMax.uadd_sat Other.getUnsignedMax).succ
    getNonEmpty NewL NewU

end ConstantRange

/-! ## Machine integers of the program -/

/-- The value of the `int` expression `1 << i` for `i < 32` (`1 << 31` is the most
negative `int`). -/
def shl1 (i : Nat) : Int := if i < 31 then 2 ^ i else -(2 ^ 31)

/-- Conversion of an `int` to `unsigned` (32 bits). -/
def toUnsigned (v : Int) : Nat := (v % 2 ^ 32).toNat

/-- Conversion of an `int` to `uint64_t` (sign extension, then 64 bits). -/
def toUInt64 (v : Int) : Nat := (v % 2 ^ 64).toNat

/-- The loop `for (i = 0; i < bitwidth; i++) maxVal |= (1 << i)` on an `unsigned`
accumulator (lines 17-19). -/
def maxValUnsigned (bitwidth : Nat) : Nat :=
  (List.range bitwidth).foldl (fun maxVal i => maxVal ||| toUnsigned (shl1 i)) 0

/-- The loop `for (i = 0; i < bitwidth; i++) maxVal |= (1 << i)` on a `uint64_t`
accumulator (lines 87-89). -/
def maxValUInt64 (bitwidth : Nat) : Nat :=
  (List.range bitwidth).foldl (fun maxVal i => maxVal ||| toUInt64 (shl1 i)) 0

/-! ## `src/main.cpp` -/

/-- The inner loop of `getConstantRangesForBitwidth` (lines 23-26): `hi` is an
`unsigned` counter, `fuel` bounds the number of iterations. -/
def getConstantRangesForBitwidth.inner (bitwidth maxVal lo : Nat) :
    Nat → Nat → List ConstantRange → Option (List ConstantRange)
  | 0, _, _ => none
  | fuel + 1, hi, possibleRanges =>
    if hi ≤ maxVal then
      getConstantRangesForBitwidth.inner bitwidth maxVal lo fuel ((hi + 1) % 2 ^ 32)
        (possibleRanges ++ [ConstantRange.mk (mkAPInt bitwidth lo) (mkAPInt bitwidth hi)])
    else some possibleRanges

/-- The outer loop of `getConstantRangesForBitwidth` (lines 22-27): `lo` is an
`unsigned` counter, `fuel` bounds the number of iterations of each loop. -/
def getConstantRangesForBitwidth.outer (bitwidth maxVal : Nat) :
    Nat → Nat → List ConstantRange → Option (List ConstantRange)
  | 0, _, _ => none
  | fuel + 1, lo, possibleRanges =>
    if lo ≤ maxVal then
      match getConstantRangesForBitwidth.inner bitwidth maxVal lo fuel ((lo + 1) % 2 ^ 32)
          possibleRanges with
      | none => none
      | some possibleRanges =>
        getConstantRangesForBitwidth.outer bitwidth maxVal fuel ((lo + 1) % 2 ^ 32) possibleRanges
    else some possibleRanges

/-- `getConstantRangesForBitwidth` (lines 13-30); `none` when the loops have not
finished within `fuel` iterations. -/
def getConstantRangesForBitwidth (fuel bitwidth : Nat) : Option (List ConstantRange) :=
  getConstantRangesForBitwidth.outer bitwidth (maxValUnsigned bitwidth) fuel 0 []

/-- `getConcreteValuesForDomain` (lines 32-44): the values `lo, lo+1, ..., hi` for
`lo = getUnsignedMin`, `hi = getUnsignedMax`; nothing when `hi < lo`.  The counter
is 64 bits wide and `hi < 2^33`, so `x++` never wraps. -/
def getConcreteValuesForDomain (r : ConstantRange) : List APInt :=
  let lo := r.getUnsignedMin.getZExtValue
  let hi := r.getUnsignedMax.getZExtValue
  (List.range' lo (hi + 1 - lo)).map (fun x => mkAPInt r.getBitWidth x)

/-- `getAbstractValueForSet` (lines 46-65). -/
def getAbstractValueForSet (bitwidth : Nat) (concreteValues : List APInt) : ConstantRange :=
  if concreteValues.isEmpty then ConstantRange.getEmpty bitwidth
  else
    let bounds := concreteValues.foldl
      (fun (b : Nat × Nat) x =>
        let lo := if x.getZExtValue < b.1 then x.getZExtValue else b.1
        let hi := if x.getZExtValue > b.2 then x.getZExtValue else b.2
        (lo, hi))
      (0, 0)
    ConstantRange.mk (mkAPInt bitwidth bounds.1) (mkAPInt bitwidth ((bounds.2 + 1) % 2 ^ 64))

/-- `extendAPInt` (lines 67-70). -/
def extendAPInt (x : APInt) : APInt := mkAPInt (x.getBitWidth + 1) x.getZExtValue

/-- `extendRangeBitWidth` (lines 72-75). -/
def extendRangeBitWidth (r : ConstantRange) : ConstantRange :=
  ConstantRange.mk (extendAPInt r.getLower) (extendAPInt r.getUpper)

/-- `decomposedUaddSat` (lines 77-100). -/
def decomposedUaddSat (x y : ConstantRange) : ConstantRange :=
  let xExt := extendRangeBitWidth x
  let yExt := extendRangeBitWidth y
  let addRes := xExt.add yExt
  let maxVal := maxValUInt64 x.getBitWidth
  let clampedLower := min addRes.getUnsignedMin.getZExtValue maxVal
  let clampedUpper := min addRes.getUnsignedMax.getZExtValue maxVal
  let newLower := mkAPInt x.getBitWidth clampedLower
  let newUpper := mkAPInt x.getBitWidth clampedUpper
  if newLower.VAL = newUpper.VAL then ConstantRange.single newLower
  else ConstantRange.getNonEmpty newLower newUpper

/-- The five counters of `main` (lines 108-112), each a `uint64_t`. -/
structure Counters where
  total : Nat
  numDecomposedBetter : Nat
  numDecomposedWorse : Nat
  numEqual : Nat
  numIncomparable : Nat
deriving DecidableEq, Repr

/-- The counters before the loops: all zero. -/
def Counters.zero : Counters := ⟨0, 0, 0, 0, 0⟩

/-- The increment `c++` of a `uint64_t`. -/
def incr64 (c : Nat) : Nat := (c + 1) % 2 ^ 64

/-- The body of the inner loop of `main` for one pair `(x, y)` (lines 118-150). -/
def mainBody (c : Counters) (x y : ConstantRange) : Counters :=
  let c := { c with total := incr64 c.total }
  let llvmRes := x.uadd_sat y
  let decomposedRes := decomposedUaddSat x y
  if llvmRes.getUnsignedMax.getZExtValue < decomposedRes.getUnsignedMin.getZExtValue ∨
      decomposedRes.getUnsignedMax.getZExtValue < llvmRes.getUnsignedMin.getZExtValue then
    { c with numIncomparable := incr64 c.numIncomparable }
  else
    let concreteLlvmRes := getConcreteValuesForDomain llvmRes
    let concreteDecomposedRes := getConcreteValuesForDomain decomposedRes
    if concreteLlvmRes.length = concreteDecomposedRes.length then
      { c with numEqual := incr64 c.numEqual }
    else if concreteLlvmRes.length < concreteDecomposedRes.length then
      { c with numDecomposedWorse := incr64 c.numDecomposedWorse }
    else if concreteLlvmRes.length > concreteDecomposedRes.length then
      { c with numDecomposedBetter := incr64 c.numDecomposedBetter }
    else c

/-- The inner loop of `main` (line 116) over the ranges `ys` for a fixed `x`. -/
def mainInner (x : ConstantRange) (ys : List ConstantRange) (c : Counters) : Counters :=
  ys.foldl (fun c y => mainBody c x y) c

/-- The outer loop of `main` (line 114) over the ranges `xs`, each against all of
`rangesToTest`. -/
def mainOuter (rangesToTest xs : List ConstantRange) (c : Counters) : Counters :=
  xs.foldl (fun c x => mainInner x rangesToTest c) c

/-- The loops of `main` (lines 108-152) over a list of ranges, from zeroed counters. -/
def mainLoop (rangesToTest : List ConstantRange) : Counters :=
  mainOuter rangesToTest rangesToTest Counters.zero

/-- Modelled from the spec: `allRanges(w)` of §4.4 in the spec's words: every range
`[lo, hi)` with `0 ≤ lo`, `lo < hi ≤ maxVal`, `maxVal = 2^w - 1`, ordered by `lo`
ascending and then `hi` ascending. -/
def allRangesSpec (w : Nat) : List ConstantRange :=
  (List.range (2 ^ w)).flatMap fun lo =>
    (List.range' (lo + 1) (2 ^ w - 1 - lo)).map fun hi => ConstantRange.mk ⟨w, lo⟩ ⟨w, hi⟩

/-- The lexicographic order on `(Lower, Upper)` by numeric value. -/
def ConstantRange.lexLt (r s : ConstantRange) : Prop :=
  r.Lower.VAL < s.Lower.VAL ∨ (r.Lower.VAL = s.Lower.VAL ∧ r.Upper.VAL < s.Upper.VAL)

/-- The set a range denotes at width `w` is exactly `{a, ..., b}`. -/
def ConstantRange.denotes (r : ConstantRange) (w a b : Nat) : Prop :=
  r.getBitWidth = w ∧ ∀ v, v < 2 ^ w → (r.contains (mkAPInt w v) ↔ a ≤ v ∧ v ≤ b)

/-- The sum of the four classification counters. -/
def Counters.classified (c : Counters) : Nat :=
  c.numEqual + c.numDecomposedBetter + c.numDecomposedWorse + c.numIncomparable

/-- A range of width `w`: both bounds are `w`-bit values. -/
def ConstantRange.WellFormed (r : ConstantRange) (w : Nat) : Prop :=
  r.Lower.BitWidth = w ∧ r.Upper.BitWidth = w ∧ r.Lower.VAL < 2 ^ w ∧ r.Upper.VAL < 2 ^ w

instance (r : ConstantRange) (w : Nat) : Decidable (r.WellFormed w) := by
  unfold ConstantRange.WellFormed; infer_instance

/-- After `n` pairs the counters hold `n` (as 64-bit numbers) in `total` and, split
over the four classes, in the classification counters. -/
def Counters.Inv (c : Counters) (n : Nat) : Prop :=
  c.total = n % 2 ^ 64 ∧ c.classified % 2 ^ 64 = n % 2 ^ 64 ∧ (n < 2 ^ 64 → c.classified = n)

/-! ## Machine-integer facts -/

theorem maxValUnsigned_eq (w : Nat) (h : w ≤ 32) : maxValUnsigned w = 2 ^ w - 1 := by
  interval_cases w <;> decide

theorem maxValUInt64_eq (w : Nat) (h : w ≤ 31) : maxValUInt64 w = 2 ^ w - 1 := by
  interval_cases w <;> decide

theorem two_pow_le_of_le_31 (w : Nat) (h : w ≤ 31) : 2 ^ w ≤ 2147483648 := by
  calc 2 ^ w ≤ 2 ^ 31 := Nat.pow_le_pow_right (by norm_num) h
    _ = 2147483648 := by norm_num

/-! ## The enumerator -/

theorem inner_spec (bitwidth maxVal lo : Nat) (hmax : maxVal + 1 < 2 ^ 32) :
    ∀ (n fuel hi : Nat) (acc : List ConstantRange), hi + n = maxVal + 1 → n < fuel →
      getConstantRangesForBitwidth.inner bitwidth maxVal lo fuel hi acc =
        some (acc ++ (List.range' hi n).map fun hi =>
          ConstantRange.mk (mkAPInt bitwidth lo) (mkAPInt bitwidth hi)) := by
  intro n
  induction n with
  | zero =>
    intro fuel hi acc hn hf
    obtain ⟨f, rfl⟩ : ∃ f, fuel = f + 1 := ⟨fuel - 1, by omega⟩
    have : ¬ hi ≤ maxVal := by omega
    simp [getConstantRangesForBitwidth.inner, this]
  | succ n ih =>
    intro fuel hi acc hn hf
    obtain ⟨f, rfl⟩ : ∃ f, fuel = f + 1 := ⟨fuel - 1, by omega⟩
    have hle : hi ≤ maxVal := by omega
    have hmod : (hi + 1) % 2 ^ 32 = hi + 1 := Nat.mod_eq_of_lt (by omega)
    simp only [getConstantRangesForBitwidth.inner, hle, if_true, hmod]
    rw [ih f (hi + 1) _ (by omega) (by omega), List.range'_succ]
    simp

theorem outer_spec (bitwidth maxVal : Nat) (hmax : maxVal + 1 < 2 ^ 32) :
    ∀ (n fuel lo : Nat) (acc : List ConstantRange), lo + n = maxVal + 1 → n < fuel →
      getConstantRangesForBitwidth.outer bitwidth maxVal fuel lo acc =
        some (acc ++ (List.range' lo n).flatMap fun lo =>
          (List.range' (lo + 1) (maxVal - lo)).map fun hi =>
            ConstantRange.mk (mkAPInt bitwidth lo) (mkAPInt bitwidth hi)) := by
  intro n
  induction n with
  | zero =>
    intro fuel lo acc hn hf
    obtain ⟨f, rfl⟩ : ∃ f, fuel = f + 1 := ⟨fuel - 1, by omega⟩
    have : ¬ lo ≤ maxVal := by omega
    simp [getConstantRangesForBitwidth.outer, this]
  | succ n ih =>
    intro fuel lo acc hn hf
    obtain ⟨f, rfl⟩ : ∃ f, fuel = f + 1 := ⟨fuel - 1, by omega⟩
    have hle : lo ≤ maxVal := by omega
    have hmod : (lo + 1) % 2 ^ 32 = lo + 1 := Nat.mod_eq_of_lt (by omega)
    simp only [getConstantRangesForBitwidth.outer, hle, if_true, hmod]
    rw [inner_spec bitwidth maxVal lo hmax (maxVal - lo) f (lo + 1) acc (by omega) (by omega)]
    simp only
    rw [ih f (lo + 1) _ (by omega) (by omega), List.range'_succ]
    simp

theorem inner_mono (bitwidth maxVal lo : Nat) :
    ∀ (fuel hi : Nat) (acc L : List ConstantRange),
      getConstantRangesForBitwidth.inner bitwidth maxVal lo fuel hi acc = some L →
      getConstantRangesForBitwidth.inner bitwidth maxVal lo (fuel + 1) hi acc = some L := by
  intro fuel
  induction fuel with
  | zero => intro hi acc L h; simp [getConstantRangesForBitwidth.inner] at h
  | succ f ih =>
    intro hi acc L h
    rw [getConstantRangesForBitwidth.inner] at h ⊢
    split_ifs at h ⊢ with hle
    · exact ih _ _ _ h
    · exact h

theorem outer_mono (bitwidth maxVal : Nat) :
    ∀ (fuel lo : Nat) (acc L : List ConstantRange),
      getConstantRangesForBitwidth.outer bitwidth maxVal fuel lo acc = some L →
      getConstantRangesForBitwidth.outer bitwidth maxVal (fuel + 1) lo acc = some L := by
  intro fuel
  induction fuel with
  | zero => intro lo acc L h; simp [getConstantRangesForBitwidth.outer] at h
  | succ f ih =>
    intro lo acc L h
    rw [getConstantRangesForBitwidth.outer] at h ⊢
    by_cases hle : lo ≤ maxVal
    · rw [if_pos hle] at h ⊢
      cases hin : getConstantRangesForBitwidth.inner bitwidth maxVal lo f ((lo + 1) % 2 ^ 32) acc with
      | none => rw [hin] at h; exact absurd h (by simp)
      | some acc1 =>
        rw [hin] at h
        rw [inner_mono bitwidth maxVal lo f _ acc acc1 hin]
        exact ih _ _ _ h
    · rw [if_neg hle] at h ⊢
      exact h

theorem getConstantRangesForBitwidth_mono (w : Nat) (L : List ConstantRange) :
    ∀ (fuel k : Nat), getConstantRangesForBitwidth fuel w = some L →
      getConstantRangesForBitwidth (fuel + k) w = some L := by
  intro fuel k h
  induction k with
  | zero => exact h
  | succ k ih => exact outer_mono _ _ _ _ _ _ ih

theorem getConstantRangesForBitwidth_eq (w : Nat) (h31 : w ≤ 31) (fuel : Nat)
    (hfuel : 2 ^ w < fuel) : getConstantRangesForBitwidth fuel w = some (allRangesSpec w) := by
  have hp := two_pow_le_of_le_31 w h31
  have hpos : 0 < 2 ^ w := Nat.pos_of_ne_zero (by positivity)
  unfold getConstantRangesForBitwidth
  rw [maxValUnsigned_eq w (by omega),
    outer_spec w (2 ^ w - 1) (by norm_num; omega) (2 ^ w) fuel 0 [] (by omega) hfuel]
  simp only [List.nil_append, allRangesSpec, List.range_eq_range', Option.some.injEq]
  apply List.flatMap_congr
  intro lo hlo
  rw [List.mem_range'_1] at hlo
  apply List.map_congr_left
  intro hi hhi
  rw [List.mem_range'_1] at hhi
  simp only [mkAPInt]
  rw [Nat.mod_eq_of_lt (by omega), Nat.mod_eq_of_lt (by omega)]

theorem getConstantRangesForBitwidth_unique (w : Nat) (h31 : w ≤ 31) (fuel : Nat)
    (L : List ConstantRange) (h : getConstantRangesForBitwidth fuel w = some L) :
    L = allRangesSpec w := by
  have h1 := getConstantRangesForBitwidth_mono w L fuel (2 ^ w + 1) h
  rw [getConstantRangesForBitwidth_eq w h31 _ (by omega)] at h1
  exact (Option.some.inj h1).symm

theorem mem_allRangesSpec (w : Nat) (r : ConstantRange) :
    r ∈ allRangesSpec w ↔
      ∃ lo hi, lo < hi ∧ hi ≤ 2 ^ w - 1 ∧ r = ConstantRange.mk ⟨w, lo⟩ ⟨w, hi⟩ := by
  simp only [allRangesSpec, List.mem_flatMap, List.mem_map, List.mem_range, List.mem_range'_1]
  constructor
  · rintro ⟨lo, hlo, hi, hhi, rfl⟩
    exact ⟨lo, hi, by omega, by omega, rfl⟩
  · rintro ⟨lo, hi, h1, h2, rfl⟩
    exact ⟨lo, by omega, hi, by omega, rfl⟩

theorem pairwise_allRangesSpec (w : Nat) : (allRangesSpec w).Pairwise ConstantRange.lexLt := by
  unfold allRangesSpec
  rw [List.pairwise_flatMap]
  constructor
  · intro lo _
    rw [List.pairwise_map]
    refine (List.pairwise_lt_range' (lo + 1) (2 ^ w - 1 - lo)).imp ?_
    intro a b hab
    exact Or.inr ⟨rfl, hab⟩
  · refine (List.pairwise_lt_range (2 ^ w)).imp ?_
    intro a b hab x hx y hy
    simp only [List.mem_map] at hx hy
    obtain ⟨_, _, rfl⟩ := hx
    obtain ⟨_, _, rfl⟩ := hy
    exact Or.inl hab

theorem nodup_allRangesSpec (w : Nat) : (allRangesSpec w).Nodup := by
  refine (pairwise_allRangesSpec w).imp ?_
  intro a b hab heq
  subst heq
  unfold ConstantRange.lexLt at hab
  omega

theorem sum_range'_descending :
    ∀ (k lo : Nat), ((List.range' lo k).map fun x => lo + k - 1 - x).sum * 2 + k = k * k := by
  intro k
  induction k with
  | zero => intro lo; simp
  | succ k ih =>
    intro lo
    have h := ih (lo + 1)
    have hfun : (fun x => lo + (k + 1) - 1 - x) = fun x => lo + 1 + k - 1 - x := by
      funext x; omega
    have hsq : (k + 1) * (k + 1) = k * k + 2 * k + 1 := by ring
    rw [List.range'_succ, List.map_cons, List.sum_cons, hfun, hsq]
    omega

theorem length_allRangesSpec (w : Nat) :
    (allRangesSpec w).length = ((List.range (2 ^ w - 1 + 1)).map fun lo => 2 ^ w - 1 - lo).sum ∧
      (allRangesSpec w).length * 2 + 2 ^ w = 2 ^ w * 2 ^ w := by
  have hpos : 0 < 2 ^ w := Nat.pos_of_ne_zero (by positivity)
  have hlen : (allRangesSpec w).length =
      ((List.range' 0 (2 ^ w)).map fun lo => 0 + 2 ^ w - 1 - lo).sum := by
    unfold allRangesSpec
    rw [List.length_flatMap, List.range_eq_range']
    congr 1
    apply List.map_congr_left
    intro lo _
    simp
  refine ⟨?_, ?_⟩
  · rw [hlen, Nat.sub_add_cancel hpos, List.range_eq_range']
    congr 1
    apply List.map_congr_left
    intro lo _
    omega
  · rw [hlen]
    exact sum_range'_descending (2 ^ w) 0

theorem inner_diverges (bitwidth lo : Nat) :
    ∀ (fuel hi : Nat) (acc : List ConstantRange), hi < 2 ^ 32 →
      getConstantRangesForBitwidth.inner bitwidth (2 ^ 32 - 1) lo fuel hi acc = none := by
  intro fuel
  induction fuel with
  | zero => intro hi acc _; rfl
  | succ f ih =>
    intro hi acc hhi
    rw [getConstantRangesForBitwidth.inner, if_pos (by omega)]
    exact ih _ _ (Nat.mod_lt _ (by norm_num))

theorem outer_diverges (bitwidth : Nat) (fuel : Nat) (acc : List ConstantRange) :
    getConstantRangesForBitwidth.outer bitwidth (2 ^ 32 - 1) fuel 0 acc = none := by
  cases fuel with
  | zero => rfl
  | succ f =>
    rw [getConstantRangesForBitwidth.outer, if_pos (by omega),
      inner_diverges bitwidth 0 f _ acc (Nat.mod_lt _ (by norm_num))]

/-! ## The reference algorithm -/

theorem pred_mod (M v : Nat) (hv : v < M) :
    (v + (M - 1)) % M = if v = 0 then M - 1 else v - 1 := by
  split_ifs with h
  · subst h
    rw [Nat.zero_add]
    exact Nat.mod_eq_of_lt (by omega)
  · have : v + (M - 1) = v - 1 + M := by omega
    rw [this, Nat.add_mod_right]
    exact Nat.mod_eq_of_lt (by omega)

theorem succ_mod (M v : Nat) (hv : v < M) :
    (v + 1) % M = if v + 1 = M then 0 else v + 1 := by
  split_ifs with h
  · rw [h, Nat.mod_self]
  · exact Nat.mod_eq_of_lt (by omega)

/-- The range built from inclusive bounds `L ≤ U` as `getNonEmpty(L, U + 1)` has
minimum `L`, maximum `U` and denotes `{L, ..., U}`. -/
theorem getNonEmpty_succ (w L U : Nat) (hLU : L ≤ U) (hU : U < 2 ^ w) :
    (ConstantRange.getNonEmpty ⟨w, L⟩ (APInt.succ ⟨w, U⟩)).getUnsignedMin = ⟨w, L⟩ ∧
    (ConstantRange.getNonEmpty ⟨w, L⟩ (APInt.succ ⟨w, U⟩)).getUnsignedMax = ⟨w, U⟩ ∧
    ∀ s, s < 2 ^ w →
      ((ConstantRange.getNonEmpty ⟨w, L⟩ (APInt.succ ⟨w, U⟩)).contains ⟨w, s⟩ ↔ L ≤ s ∧ s ≤ U) := by
  simp only [APInt.succ, succ_mod _ _ hU]
  by_cases hM : U + 1 = 2 ^ w
  · by_cases hL : L = 0
    · simp [ConstantRange.getNonEmpty, ConstantRange.getUnsignedMin, ConstantRange.getUnsignedMax,
        ConstantRange.contains, ConstantRange.isFullSet, ConstantRange.isWrappedSet,
        ConstantRange.isUpperWrapped, ConstantRange.getFull, APInt.getMaxValue, APInt.getMinValue,
        APInt.isMaxValue, ConstantRange.getBitWidth, ConstantRange.getLower,
        ConstantRange.getUpper, APInt.pred, hM, hL]
      refine ⟨by omega, fun s hs => by omega⟩
    · simp [ConstantRange.getNonEmpty, ConstantRange.getUnsignedMin, ConstantRange.getUnsignedMax,
        ConstantRange.contains, ConstantRange.isFullSet, ConstantRange.isWrappedSet,
        ConstantRange.isUpperWrapped, ConstantRange.getFull, APInt.getMaxValue, APInt.getMinValue,
        APInt.isMaxValue, ConstantRange.getBitWidth, ConstantRange.getLower,
        ConstantRange.getUpper, APInt.pred, hM, hL]
      refine ⟨by omega, fun s hs => by omega⟩
  · have hne : L ≠ U + 1 := by omega
    have hlt : ¬ U + 1 < L := by omega
    simp [ConstantRange.getNonEmpty, ConstantRange.getUnsignedMin, ConstantRange.getUnsignedMax,
      ConstantRange.contains, ConstantRange.isFullSet, ConstantRange.isWrappedSet,
      ConstantRange.isUpperWrapped, ConstantRange.getFull, APInt.getMaxValue, APInt.getMinValue,
      APInt.isMaxValue, ConstantRange.getBitWidth, ConstantRange.getLower,
      ConstantRange.getUpper, APInt.pred, hM, hne, hlt]
    refine ⟨?_, fun s _ _ => by omega⟩
    rw [pred_mod (2 ^ w) (U + 1) (by omega)]
    simp

/-- Every element of a range lies between its unsigned minimum and maximum. -/
theorem contains_bounds (w a : Nat) (x : ConstantRange) (hx : x.WellFormed w) (ha : a < 2 ^ w)
    (h : x.contains ⟨w, a⟩) :
    x.getUnsignedMin.BitWidth = w ∧ x.getUnsignedMax.BitWidth = w ∧
      x.getUnsignedMin.VAL ≤ a ∧ a ≤ x.getUnsignedMax.VAL ∧ x.getUnsignedMax.VAL < 2 ^ w := by
  obtain ⟨⟨xw, xl⟩, ⟨xw', xu⟩⟩ := x
  obtain ⟨h1, h2, h3, h4⟩ := hx
  simp only at h1 h2 h3 h4
  subst h1 h2
  simp only [ConstantRange.contains, ConstantRange.isFullSet, ConstantRange.isUpperWrapped,
    APInt.isMaxValue] at h
  simp only [ConstantRange.getUnsignedMin, ConstantRange.getUnsignedMax,
    ConstantRange.isFullSet, ConstantRange.isWrappedSet,
    ConstantRange.isUpperWrapped, APInt.getMaxValue, APInt.getMinValue,
    APInt.isMaxValue, ConstantRange.getBitWidth, ConstantRange.getLower,
    ConstantRange.getUpper, APInt.pred, pred_mod _ _ h4]
  split_ifs at h ⊢ <;> simp at * <;> omega

theorem APInt.uadd_sat_eq (w w' p q : Nat) :
    APInt.uadd_sat ⟨w, p⟩ ⟨w', q⟩ = ⟨w, min (p + q) (2 ^ w - 1)⟩ := by
  have hpos : 0 < 2 ^ w := Nat.pos_of_ne_zero (by positivity)
  simp only [APInt.uadd_sat, APInt.getMaxValue]
  split_ifs with h
  · simp only [APInt.mk.injEq, true_and]; omega
  · simp only [APInt.mk.injEq, true_and]; omega

theorem mkAPInt_of_lt (w a : Nat) (ha : a < 2 ^ w) : mkAPInt w a = ⟨w, a⟩ := by
  simp [mkAPInt, Nat.mod_eq_of_lt ha]

/-- For non-empty `x`, `y` with elements `a`, `b`, the reference result is the range
built from the saturated sums of the minima and of the maxima. -/
theorem uadd_sat_eq_getNonEmpty (w a b : Nat) (x y : ConstantRange) (hx : x.WellFormed w)
    (hy : y.WellFormed w) (hxne : ¬ x.isEmptySet) (hyne : ¬ y.isEmptySet)
    (ha : a < 2 ^ w) (hb : b < 2 ^ w) (hax : x.contains ⟨w, a⟩) (hby : y.contains ⟨w, b⟩) :
    ∃ L U, L ≤ U ∧ U < 2 ^ w ∧
      L = min (x.getUnsignedMin.VAL + y.getUnsignedMin.VAL) (2 ^ w - 1) ∧
      U = min (x.getUnsignedMax.VAL + y.getUnsignedMax.VAL) (2 ^ w - 1) ∧
      L ≤ min (a + b) (2 ^ w - 1) ∧ min (a + b) (2 ^ w - 1) ≤ U ∧
      x.uadd_sat y = ConstantRange.getNonEmpty ⟨w, L⟩ (APInt.succ ⟨w, U⟩) := by
  obtain ⟨bx1, bx2, hx1, hx2, hx3⟩ := contains_bounds w a x hx ha hax
  obtain ⟨by1, by2, hy1, hy2, hy3⟩ := contains_bounds w b y hy hb hby
  refine ⟨_, _, ?_, ?_, rfl, rfl, ?_, ?_, ?_⟩
  · omega
  · omega
  · omega
  · omega
  · unfold ConstantRange.uadd_sat
    rw [if_neg (not_or.mpr ⟨hxne, hyne⟩)]
    rcases hm1 : x.getUnsignedMin with ⟨mw1, m1⟩
    rcases hm2 : y.getUnsignedMin with ⟨mw2, m2⟩
    rcases hM1 : x.getUnsignedMax with ⟨Mw1, M1⟩
    rcases hM2 : y.getUnsignedMax with ⟨Mw2, M2⟩
    rw [hm1] at bx1
    rw [hM1] at bx2
    simp only at bx1 bx2
    subst bx1 bx2
    simp only [APInt.uadd_sat_eq]

/-! ## The comparison harness -/

theorem mainBody_cases (c : Counters) (x y : ConstantRange) :
    mainBody c x y =
        { c with total := incr64 c.total, numEqual := incr64 c.numEqual } ∨
      mainBody c x y =
        { c with total := incr64 c.total, numDecomposedBetter := incr64 c.numDecomposedBetter } ∨
      mainBody c x y =
        { c with total := incr64 c.total, numDecomposedWorse := incr64 c.numDecomposedWorse } ∨
      mainBody c x y =
        { c with total := incr64 c.total, numIncomparable := incr64 c.numIncomparable } := by
  unfold mainBody
  simp only
  split_ifs with h1 h2 h3 h4
  · exact Or.inr (Or.inr (Or.inr rfl))
  · exact Or.inl rfl
  · exact Or.inr (Or.inr (Or.inl rfl))
  · exact Or.inr (Or.inl rfl)
  · omega

theorem mainBody_inv (c : Counters) (n : Nat) (x y : ConstantRange) (h : c.Inv n) :
    (mainBody c x y).Inv (n + 1) := by
  obtain ⟨h1, h2, h3⟩ := h
  unfold Counters.classified at h2 h3
  rcases mainBody_cases c x y with e | e | e | e <;> rw [e] <;>
    simp only [Counters.Inv, Counters.classified, incr64] <;>
    refine ⟨by omega, by omega, fun hn => by omega⟩

theorem mainInner_inv (x : ConstantRange) (ys : List ConstantRange) :
    ∀ (c : Counters) (n : Nat), c.Inv n → (mainInner x ys c).Inv (n + ys.length) := by
  induction ys with
  | nil => intro c n h; exact h
  | cons y ys ih =>
    intro c n h
    have h1 := ih (mainBody c x y) (n + 1) (mainBody_inv c n x y h)
    rw [List.length_cons, show n + (ys.length + 1) = n + 1 + ys.length by omega]
    exact h1

theorem mainOuter_inv (rangesToTest xs : List ConstantRange) :
    ∀ (c : Counters) (n : Nat), c.Inv n →
      (mainOuter rangesToTest xs c).Inv (n + xs.length * rangesToTest.length) := by
  induction xs with
  | nil => intro c n h; simpa [mainOuter] using h
  | cons x xs ih =>
    intro c n h
    have h1 := ih (mainInner x rangesToTest c) (n + rangesToTest.length)
      (mainInner_inv x rangesToTest c n h)
    rw [List.length_cons, show n + (xs.length + 1) * rangesToTest.length =
      n + rangesToTest.length + xs.length * rangesToTest.length by ring]
    exact h1

theorem Counters.zero_inv : Counters.zero.Inv 0 := by
  simp [Counters.Inv, Counters.zero, Counters.classified]

theorem mainProgress_inv (rangesToTest xs ys : List ConstantRange) (x : ConstantRange) :
    (mainInner x ys (mainOuter rangesToTest xs Counters.zero)).Inv
      (xs.length * rangesToTest.length + ys.length) := by
  have h := mainInner_inv x ys _ _ (mainOuter_inv rangesToTest xs _ _ Counters.zero_inv)
  rwa [Nat.zero_add] at h

/-! ## The decomposed algorithm on non-wrapping ranges -/

theorem sub_mod (M a b : Nat) (hb : b ≤ a) (ha : a < M) : (a + (M - b % M)) % M = a - b := by
  rw [Nat.mod_eq_of_lt (by omega : b < M)]
  have : a + (M - b) = a - b + M := by omega
  rw [this, Nat.add_mod_right]
  exact Nat.mod_eq_of_lt (by omega)

/-- The sum of two extended non-wrapping ranges `[xl, xh)`, `[yl, yh)` with
`xh, yh ≤ 2^w - 1` at width `w + 1` is `[xl + yl, xh + yh - 1)`. -/
theorem add_extended (w xl xh yl yh : Nat) (hx : xl < xh) (hxh : xh < 2 ^ w) (hy : yl < yh)
    (hyh : yh < 2 ^ w) :
    (extendRangeBitWidth ⟨⟨w, xl⟩, ⟨w, xh⟩⟩).add (extendRangeBitWidth ⟨⟨w, yl⟩, ⟨w, yh⟩⟩) =
      ⟨⟨w + 1, xl + yl⟩, ⟨w + 1, xh + yh - 1⟩⟩ := by
  have hpow : 2 ^ (w + 1) = 2 * 2 ^ w := by rw [Nat.pow_succ]; omega
  have e1 : ∀ v, v < 2 ^ w → mkAPInt (w + 1) v = ⟨w + 1, v⟩ := fun v hv =>
    mkAPInt_of_lt (w + 1) v (by omega)
  simp only [extendRangeBitWidth, extendAPInt, ConstantRange.getLower, ConstantRange.getUpper,
    APInt.getBitWidth, APInt.getZExtValue, e1 xl (by omega), e1 xh hxh, e1 yl (by omega),
    e1 yh hyh]
  have hL : (xl + yl) % 2 ^ (w + 1) = xl + yl := Nat.mod_eq_of_lt (by omega)
  have hU : (xh + yh) % 2 ^ (w + 1) = xh + yh := Nat.mod_eq_of_lt (by omega)
  have hP : (xh + yh + (2 ^ (w + 1) - 1)) % 2 ^ (w + 1) = xh + yh - 1 := by
    rw [pred_mod _ _ (by omega)]
    rw [if_neg (by omega)]
  have hS1 : (xh + yh - 1 + (2 ^ (w + 1) - (xl + yl))) % 2 ^ (w + 1) =
      xh + yh - 1 - (xl + yl) := by
    have h := sub_mod (2 ^ (w + 1)) (xh + yh - 1) (xl + yl) (by omega) (by omega)
    rwa [hL] at h
  have hS2 : (xh + (2 ^ (w + 1) - xl % 2 ^ (w + 1))) % 2 ^ (w + 1) = xh - xl :=
    sub_mod _ _ _ (by omega) (by omega)
  have hS3 : (yh + (2 ^ (w + 1) - yl % 2 ^ (w + 1))) % 2 ^ (w + 1) = yh - yl :=
    sub_mod _ _ _ (by omega) (by omega)
  have hne1 : ¬ (xl = xh ∧ xl = 0) := by omega
  have hne2 : ¬ (yl = yh ∧ yl = 0) := by omega
  have hnf1 : ¬ (xl = xh ∧ xl = 2 ^ (w + 1) - 1) := by omega
  have hnf2 : ¬ (yl = yh ∧ yl = 2 ^ (w + 1) - 1) := by omega
  have hnf3 : ¬ (xl + yl = xh + yh - 1 ∧ xl + yl = 2 ^ (w + 1) - 1) := by omega
  have hne3 : ¬ (xl + yl = xh + yh - 1) := by omega
  have hsz1 : ¬ (xh + yh - 1 - (xl + yl) < xh - xl) := by omega
  have hsz2 : ¬ (xh + yh - 1 - (xl + yl) < yh - yl) := by omega
  simp only [ConstantRange.add, ConstantRange.isEmptySet, ConstantRange.isFullSet,
    APInt.isMinValue, APInt.isMaxValue, ConstantRange.getLower, ConstantRange.getUpper,
    ConstantRange.getBitWidth, APInt.add, APInt.pred, APInt.sub,
    ConstantRange.isSizeStrictlySmallerThan, hL, hU, hP, hS1, hS2, hS3, hne1, hne2, hnf1, hnf2,
    hnf3, hne3, hsz1, hsz2, or_self, if_false, false_and]

/-- On non-wrapping ranges `[xl, xh)`, `[yl, yh)` with `xh, yh ≤ 2^w - 1` (the ranges
the enumerator produces), with `L = min (xl + yl) (2^w - 1)` and
`U = min (xh + yh - 2) (2^w - 1)`, `decomposedUaddSat` returns the single value `L`
when `L = U` and the range `[L, U)` otherwise. -/
theorem decomposedUaddSat_nonwrapped (w xl xh yl yh : Nat) (h31 : w ≤ 31) (hx : xl < xh)
    (hxh : xh < 2 ^ w) (hy : yl < yh) (hyh : yh < 2 ^ w) :
    decomposedUaddSat ⟨⟨w, xl⟩, ⟨w, xh⟩⟩ ⟨⟨w, yl⟩, ⟨w, yh⟩⟩ =
      if min (xl + yl) (2 ^ w - 1) = min (xh + yh - 2) (2 ^ w - 1) then
        ConstantRange.single ⟨w, min (xl + yl) (2 ^ w - 1)⟩
      else ⟨⟨w, min (xl + yl) (2 ^ w - 1)⟩, ⟨w, min (xh + yh - 2) (2 ^ w - 1)⟩⟩ := by
  have hpow : 2 ^ (w + 1) = 2 * 2 ^ w := by rw [Nat.pow_succ]; omega
  have hP : (xh + yh - 1 + (2 ^ (w + 1) - 1)) % 2 ^ (w + 1) = xh + yh - 2 := by
    rw [pred_mod _ _ (by omega)]
    rw [if_neg (by omega)]
    omega
  have hnf : ¬ (xl + yl = xh + yh - 1 ∧ xl + yl = 2 ^ (w + 1) - 1) := by omega
  have hnw : ¬ (xh + yh - 1 < xl + yl ∧ xh + yh - 1 ≠ 0) := by omega
  have hnu : ¬ (xh + yh - 1 < xl + yl) := by omega
  have hmin : (ConstantRange.mk ⟨w + 1, xl + yl⟩ ⟨w + 1, xh + yh - 1⟩).getUnsignedMin.getZExtValue
      = xl + yl := by
    simp only [ConstantRange.getUnsignedMin, ConstantRange.isFullSet, ConstantRange.isWrappedSet,
      APInt.isMaxValue, ConstantRange.getLower, APInt.getZExtValue, hnf, hnw, or_self, if_false]
  have hmax : (ConstantRange.mk ⟨w + 1, xl + yl⟩ ⟨w + 1, xh + yh - 1⟩).getUnsignedMax.getZExtValue
      = xh + yh - 2 := by
    simp only [ConstantRange.getUnsignedMax, ConstantRange.isFullSet,
      ConstantRange.isUpperWrapped, APInt.isMaxValue, ConstantRange.getUpper,
      APInt.getZExtValue, APInt.pred, hnf, hnu, or_self, if_false, hP]
  unfold decomposedUaddSat
  simp only [add_extended w xl xh yl yh hx hxh hy hyh, hmin, hmax, ConstantRange.getBitWidth,
    maxValUInt64_eq w h31]
  rw [mkAPInt_of_lt w (min (xl + yl) (2 ^ w - 1)) (by omega),
    mkAPInt_of_lt w (min (xh + yh - 2) (2 ^ w - 1)) (by omega)]
  split_ifs with h
  · rfl
  · simp only [ConstantRange.getNonEmpty]
    rw [if_neg h]

/-! ## Minimum, maximum and cardinality of the ranges the harness sees -/

/-- A stored non-wrapping range `[lo, hi)` has minimum `lo` and maximum `hi - 1`. -/
theorem minmax_nonwrapped (w lo hi : Nat) (h : lo < hi) (hhi : hi < 2 ^ w) :
    (ConstantRange.mk ⟨w, lo⟩ ⟨w, hi⟩).getUnsignedMin = ⟨w, lo⟩ ∧
      (ConstantRange.mk ⟨w, lo⟩ ⟨w, hi⟩).getUnsignedMax = ⟨w, hi - 1⟩ := by
  have hnf : ¬ (lo = hi ∧ lo = 2 ^ w - 1) := by omega
  have hnw : ¬ (hi < lo ∧ hi ≠ 0) := by omega
  have hnu : ¬ hi < lo := by omega
  have hP : (hi + (2 ^ w - 1)) % 2 ^ w = hi - 1 := by
    rw [pred_mod _ _ hhi, if_neg (by omega)]
  simp only [ConstantRange.getUnsignedMin, ConstantRange.getUnsignedMax, ConstantRange.isFullSet,
    ConstantRange.isWrappedSet, ConstantRange.isUpperWrapped, APInt.isMaxValue,
    ConstantRange.getLower, ConstantRange.getUpper, APInt.pred, hnf, hnw, hnu, hP, or_self,
    if_false, and_self, false_and]

/-- A range `[lo, 2^w)`, stored as `[lo, 0)` with `0 < lo`, has minimum `lo` and
maximum `2^w - 1`. -/
theorem minmax_upper_at_top (w lo : Nat) (h : 0 < lo) :
    (ConstantRange.mk ⟨w, lo⟩ ⟨w, 0⟩).getUnsignedMin = ⟨w, lo⟩ ∧
      (ConstantRange.mk ⟨w, lo⟩ ⟨w, 0⟩).getUnsignedMax = ⟨w, 2 ^ w - 1⟩ := by
  have hnf : ¬ (lo = 0 ∧ lo = 2 ^ w - 1) := by omega
  simp only [ConstantRange.getUnsignedMin, ConstantRange.getUnsignedMax, ConstantRange.isFullSet,
    ConstantRange.isWrappedSet, ConstantRange.isUpperWrapped, APInt.isMaxValue,
    ConstantRange.getLower, ConstantRange.getUpper, APInt.getMaxValue,
    ConstantRange.getBitWidth, hnf, h, ne_eq, not_true_eq_false, and_false, or_self, false_or,
    if_false, if_true, and_self]

/-- For `1 ≤ w` the single-value range `{L}` is `getNonEmpty(L, L + 1)`. -/
theorem single_eq_getNonEmpty (w L : Nat) (hw : 1 ≤ w) (hL : L < 2 ^ w) :
    ConstantRange.single ⟨w, L⟩ = ConstantRange.getNonEmpty ⟨w, L⟩ (APInt.succ ⟨w, L⟩) := by
  have h2 : 2 ≤ 2 ^ w := by
    calc 2 = 2 ^ 1 := by norm_num
      _ ≤ 2 ^ w := Nat.pow_le_pow_right (by norm_num) hw
  have hne : ¬ L = (L + 1) % 2 ^ w := by
    rw [succ_mod _ _ hL]
    split_ifs <;> omega
  simp only [ConstantRange.single, ConstantRange.getNonEmpty, APInt.succ, hne, if_false]

/-- The length of `getConcreteValuesForDomain r` is `max - min + 1` (zero when the
maximum is below the minimum). -/
theorem length_getConcreteValuesForDomain (r : ConstantRange) :
    (getConcreteValuesForDomain r).length =
      r.getUnsignedMax.VAL + 1 - r.getUnsignedMin.VAL := by
  simp [getConcreteValuesForDomain, APInt.getZExtValue]

/-! ## Both algorithms on the enumerated ranges -/

/-- On stored non-wrapping ranges the reference result is built from
`L = min (xl + yl) (2^w - 1)` and `U = min (xh + yh - 2) (2^w - 1)`. -/
theorem uadd_sat_nonwrapped (w xl xh yl yh : Nat) (hx : xl < xh) (hxh : xh < 2 ^ w)
    (hy : yl < yh) (hyh : yh < 2 ^ w) :
    ConstantRange.uadd_sat ⟨⟨w, xl⟩, ⟨w, xh⟩⟩ ⟨⟨w, yl⟩, ⟨w, yh⟩⟩ =
      ConstantRange.getNonEmpty ⟨w, min (xl + yl) (2 ^ w - 1)⟩
        (APInt.succ ⟨w, min (xh + yh - 2) (2 ^ w - 1)⟩) := by
  obtain ⟨h1, h2⟩ := minmax_nonwrapped w xl xh hx hxh
  obtain ⟨h3, h4⟩ := minmax_nonwrapped w yl yh hy hyh
  have hne1 : ¬ (xl = xh ∧ xl = 0) := by omega
  have hne2 : ¬ (yl = yh ∧ yl = 0) := by omega
  have hsum : xh - 1 + (yh - 1) = xh + yh - 2 := by omega
  simp only [ConstantRange.uadd_sat, ConstantRange.isEmptySet, APInt.isMinValue, hne1, hne2,
    or_self, if_false, h1, h2, h3, h4, APInt.uadd_sat_eq, hsum]

/-- The bounds and the elements of both results for a pair of stored non-wrapping
ranges, with `L = min (xl + yl) (2^w - 1)` and `U = min (xh + yh - 2) (2^w - 1)`:
the reference denotes `{L, ..., U}`, the decomposed result denotes `{L}` when
`L = U` and `{L, ..., U - 1}` otherwise. -/
theorem results_nonwrapped (w xl xh yl yh : Nat) (h31 : w ≤ 31) (hx : xl < xh)
    (hxh : xh < 2 ^ w) (hy : yl < yh) (hyh : yh < 2 ^ w) :
    min (xl + yl) (2 ^ w - 1) ≤ min (xh + yh - 2) (2 ^ w - 1) ∧
      (ConstantRange.uadd_sat ⟨⟨w, xl⟩, ⟨w, xh⟩⟩ ⟨⟨w, yl⟩, ⟨w, yh⟩⟩).getUnsignedMin =
        ⟨w, min (xl + yl) (2 ^ w - 1)⟩ ∧
      (ConstantRange.uadd_sat ⟨⟨w, xl⟩, ⟨w, xh⟩⟩ ⟨⟨w, yl⟩, ⟨w, yh⟩⟩).getUnsignedMax =
        ⟨w, min (xh + yh - 2) (2 ^ w - 1)⟩ ∧
      (decomposedUaddSat ⟨⟨w, xl⟩, ⟨w, xh⟩⟩ ⟨⟨w, yl⟩, ⟨w, yh⟩⟩).getUnsignedMin =
        ⟨w, min (xl + yl) (2 ^ w - 1)⟩ ∧
      (decomposedUaddSat ⟨⟨w, xl⟩, ⟨w, xh⟩⟩ ⟨⟨w, yl⟩, ⟨w, yh⟩⟩).getUnsignedMax =
        ⟨w, if min (xl + yl) (2 ^ w - 1) = min (xh + yh - 2) (2 ^ w - 1)
          then min (xl + yl) (2 ^ w - 1) else min (xh + yh - 2) (2 ^ w - 1) - 1⟩ ∧
      (∀ v, v < 2 ^ w →
        ((ConstantRange.uadd_sat ⟨⟨w, xl⟩, ⟨w, xh⟩⟩ ⟨⟨w, yl⟩, ⟨w, yh⟩⟩).contains ⟨w, v⟩ ↔
          min (xl + yl) (2 ^ w - 1) ≤ v ∧ v ≤ min (xh + yh - 2) (2 ^ w - 1))) ∧
      (∀ v, v < 2 ^ w →
        ((decomposedUaddSat ⟨⟨w, xl⟩, ⟨w, xh⟩⟩ ⟨⟨w, yl⟩, ⟨w, yh⟩⟩).contains ⟨w, v⟩ ↔
          min (xl + yl) (2 ^ w - 1) ≤ v ∧
            (v < min (xh + yh - 2) (2 ^ w - 1) ∨
              (v = min (xh + yh - 2) (2 ^ w - 1) ∧
                min (xl + yl) (2 ^ w - 1) = min (xh + yh - 2) (2 ^ w - 1))))) := by
  have hw : 1 ≤ w := by
    rcases Nat.eq_zero_or_pos w with h0 | h0
    · subst h0; simp at hxh; omega
    · exact h0
  have hLU : min (xl + yl) (2 ^ w - 1) ≤ min (xh + yh - 2) (2 ^ w - 1) := by omega
  have hU : min (xh + yh - 2) (2 ^ w - 1) < 2 ^ w := by omega
  have hL : min (xl + yl) (2 ^ w - 1) < 2 ^ w := by omega
  obtain ⟨g1, g2, g3⟩ := getNonEmpty_succ w _ _ hLU hU
  rw [uadd_sat_nonwrapped w xl xh yl yh hx hxh hy hyh,
    decomposedUaddSat_nonwrapped w xl xh yl yh h31 hx hxh hy hyh]
  refine ⟨hLU, g1, g2, ?_, ?_, g3, ?_⟩
  · split_ifs with h
    · rw [single_eq_getNonEmpty w _ hw hL]
      exact (getNonEmpty_succ w _ _ (Nat.le_refl _) hL).1
    · exact (minmax_nonwrapped w _ _ (by omega) hU).1
  · split_ifs with h
    · rw [single_eq_getNonEmpty w _ hw hL]
      exact (getNonEmpty_succ w _ _ (Nat.le_refl _) hL).2.1
    · exact (minmax_nonwrapped w _ _ (by omega) hU).2
  · intro v hv
    split_ifs with h
    · rw [single_eq_getNonEmpty w _ hw hL,
        (getNonEmpty_succ w _ _ (Nat.le_refl _) hL).2.2 v hv]
      rw [← h]
      constructor
      · rintro ⟨a, b⟩
        exact ⟨a, Or.inr ⟨Nat.le_antisymm b a, rfl⟩⟩
      · rintro ⟨a, b | ⟨b, -⟩⟩
        · exact ⟨a, Nat.le_of_lt b⟩
        · exact ⟨a, Nat.le_of_eq b⟩
    · have hne : min (xl + yl) (2 ^ w - 1) ≠ min (xh + yh - 2) (2 ^ w - 1) := h
      have hnu : ¬ min (xh + yh - 2) (2 ^ w - 1) < min (xl + yl) (2 ^ w - 1) := by omega
      simp only [ConstantRange.contains, ConstantRange.isUpperWrapped, hne, hnu, if_false,
        not_false_eq_true, if_true, and_false, or_false]

/-- The loop body on a pair of stored non-wrapping ranges: the pair is counted as
equal when `L = U` and as decomposed-better otherwise. -/
theorem mainBody_nonwrapped (c : Counters) (w xl xh yl yh : Nat) (h31 : w ≤ 31) (hx : xl < xh)
    (hxh : xh < 2 ^ w) (hy : yl < yh) (hyh : yh < 2 ^ w) :
    mainBody c ⟨⟨w, xl⟩, ⟨w, xh⟩⟩ ⟨⟨w, yl⟩, ⟨w, yh⟩⟩ =
      if min (xl + yl) (2 ^ w - 1) = min (xh + yh - 2) (2 ^ w - 1) then
        { c with total := incr64 c.total, numEqual := incr64 c.numEqual }
      else
        { c with total := incr64 c.total,
                 numDecomposedBetter := incr64 c.numDecomposedBetter } := by
  obtain ⟨hLU, h1, h2, h3, h4, -, -⟩ := results_nonwrapped w xl xh yl yh h31 hx hxh hy hyh
  simp only [mainBody, length_getConcreteValuesForDomain, APInt.getZExtValue, h1, h2, h3, h4]
  by_cases h : min (xl + yl) (2 ^ w - 1) = min (xh + yh - 2) (2 ^ w - 1)
  · simp only [h, if_true]
    rw [if_neg (by omega)]
  · simp only [h, if_false]
    rw [if_neg (by omega), if_neg (by omega), if_neg (by omega), if_pos (by omega)]

/-- On a pair of ranges the enumerator returns, the loop body counts the pair as
equal when `L = U` and as decomposed-better otherwise, with
`L = min (xl + yl) (2^w - 1)` and `U = min (xh + yh - 2) (2^w - 1)`. -/
theorem mainBody_enumerated (w : Nat) (h31 : w ≤ 31) (x y : ConstantRange)
    (hx : x ∈ allRangesSpec w) (hy : y ∈ allRangesSpec w) (c : Counters) :
    mainBody c x y =
      if min (x.Lower.VAL + y.Lower.VAL) (2 ^ w - 1) =
          min (x.Upper.VAL + y.Upper.VAL - 2) (2 ^ w - 1) then
        { c with total := incr64 c.total, numEqual := incr64 c.numEqual }
      else
        { c with total := incr64 c.total,
                 numDecomposedBetter := incr64 c.numDecomposedBetter } := by
  rw [mem_allRangesSpec] at hx hy
  obtain ⟨xl, xh, hx1, hx2, rfl⟩ := hx
  obtain ⟨yl, yh, hy1, hy2, rfl⟩ := hy
  exact mainBody_nonwrapped c w xl xh yl yh h31 hx1 (by omega) hy1 (by omega)

theorem mainBody_enumerated_keeps (w : Nat) (h31 : w ≤ 31) (x y : ConstantRange)
    (hx : x ∈ allRangesSpec w) (hy : y ∈ allRangesSpec w) (c : Counters) :
    (mainBody c x y).numIncomparable = c.numIncomparable ∧
      (mainBody c x y).numDecomposedWorse = c.numDecomposedWorse := by
  rw [mainBody_enumerated w h31 x y hx hy c]
  split_ifs <;> exact ⟨rfl, rfl⟩

theorem mainInner_enumerated_keeps (w : Nat) (h31 : w ≤ 31) (x : ConstantRange)
    (hx : x ∈ allRangesSpec w) :
    ∀ (ys : List ConstantRange) (c : Counters), (∀ y, y ∈ ys → y ∈ allRangesSpec w) →
      (mainInner x ys c).numIncomparable = c.numIncomparable ∧
        (mainInner x ys c).numDecomposedWorse = c.numDecomposedWorse := by
  intro ys
  induction ys with
  | nil => intro c _; exact ⟨rfl, rfl⟩
  | cons y ys ih =>
    intro c hys
    obtain ⟨h1, h2⟩ := ih (mainBody c x y) (fun z hz => hys z (List.mem_cons_of_mem _ hz))
    obtain ⟨h3, h4⟩ := mainBody_enumerated_keeps w h31 x y hx (hys y (List.mem_cons_self _ _)) c
    exact ⟨h1.trans h3, h2.trans h4⟩

theorem mainOuter_enumerated_keeps (w : Nat) (h31 : w ≤ 31) (rangesToTest : List ConstantRange)
    (hR : ∀ y, y ∈ rangesToTest → y ∈ allRangesSpec w) :
    ∀ (xs : List ConstantRange) (c : Counters), (∀ x, x ∈ xs → x ∈ allRangesSpec w) →
      (mainOuter rangesToTest xs c).numIncomparable = c.numIncomparable ∧
        (mainOuter rangesToTest xs c).numDecomposedWorse = c.numDecomposedWorse := by
  intro xs
  induction xs with
  | nil => intro c _; exact ⟨rfl, rfl⟩
  | cons x xs ih =>
    intro c hxs
    obtain ⟨h1, h2⟩ := ih (mainInner x rangesToTest c)
      (fun z hz => hxs z (List.mem_cons_of_mem _ hz))
    obtain ⟨h3, h4⟩ := mainInner_enumerated_keeps w h31 x (hxs x (List.mem_cons_self _ _))
      rangesToTest c hR
    exact ⟨h1.trans h3, h2.trans h4⟩

/-- The loop of `getAbstractValueForSet` started with `lo = 0` and `hi = h`: `lo`
stays 0 and `hi` ends as the largest of `h` and the values seen. -/
theorem getAbstractValueForSet_loop (vs : List APInt) :
    ∀ (h : Nat) (r : Nat × Nat),
      r = vs.foldl
        (fun (b : Nat × Nat) (x : APInt) =>
          (if x.getZExtValue < b.1 then x.getZExtValue else b.1,
            if x.getZExtValue > b.2 then x.getZExtValue else b.2))
        (0, h) →
      r.1 = 0 ∧ h ≤ r.2 ∧ (∀ x, x ∈ vs → x.VAL ≤ r.2) ∧
        (r.2 = h ∨ ∃ x, x ∈ vs ∧ x.VAL = r.2) := by
  induction vs with
  | nil =>
    intro h r hr
    subst hr
    exact ⟨rfl, Nat.le_refl _, fun x hx => absurd hx (List.not_mem_nil x), Or.inl rfl⟩
  | cons v vs ih =>
    intro h r hr
    have hstep : (if v.getZExtValue < 0 then v.getZExtValue else 0) = 0 := by
      rw [if_neg (Nat.not_lt_zero _)]
    simp only [List.foldl_cons, hstep] at hr
    obtain ⟨h1, h2, h3, h4⟩ := ih (if v.getZExtValue > h then v.getZExtValue else h) r hr
    have hv : v.getZExtValue = v.VAL := rfl
    refine ⟨h1, ?_, ?_, ?_⟩
    · split_ifs at h2 <;> omega
    · intro x hx
      rcases List.mem_cons.mp hx with rfl | hx
      · split_ifs at h2 <;> omega
      · exact h3 x hx
    · rcases h4 with h4 | ⟨x, hx, hxe⟩
      · by_cases hgt : v.getZExtValue > h
        · rw [if_pos hgt] at h4
          exact Or.inr ⟨v, List.mem_cons_self _ _, h4.symm⟩
        · rw [if_neg hgt] at h4
          exact Or.inl h4
      · exact Or.inr ⟨x, List.mem_cons_of_mem _ hx, hxe⟩

/-! ## The pairs the harness visits -/

/-- After a run over any list, `total` is the number of ordered pairs as a 64-bit
number. -/
theorem mainLoop_total_mod (rangesToTest : List ConstantRange) :
    (mainLoop rangesToTest).total = (rangesToTest.length * rangesToTest.length) % 2 ^ 64 := by
  have h := mainOuter_inv rangesToTest rangesToTest _ _ Counters.zero_inv
  rw [Nat.zero_add] at h
  exact h.1

/-- The nested loops of `main` run the loop body once on every ordered pair, rows
first, in list order. -/
theorem mainOuter_eq_foldl_pairs (rangesToTest : List ConstantRange) :
    ∀ (xs : List ConstantRange) (c : Counters),
      mainOuter rangesToTest xs c =
        (xs.flatMap fun x => rangesToTest.map fun y => (x, y)).foldl
          (fun c p => mainBody c p.1 p.2) c := by
  intro xs
  induction xs with
  | nil => intro c; rfl
  | cons x xs ih =>
    intro c
    rw [List.flatMap_cons, List.foldl_append, List.foldl_map, ← ih]
    rfl

theorem length_pairs (rangesToTest : List ConstantRange) :
    ∀ xs : List ConstantRange,
      (xs.flatMap fun x => rangesToTest.map fun y => (x, y)).length =
        xs.length * rangesToTest.length := by
  intro xs
  induction xs with
  | nil => simp
  | cons x xs ih =>
    rw [List.flatMap_cons, List.length_append, ih, List.length_map, List.length_cons]
    ring

theorem length_allRangesSpec_17 : (allRangesSpec 17).length = 8589869056 := by
  obtain ⟨-, hsq⟩ := length_allRangesSpec 17
  norm_num at hsq
  omega

/-! ## The claims -/

/-- C1: soundness of `decomposedUaddSat` fails.  At the reference width 6 the
enumerator produces `x = y = [0, 2)`, which contains 1, and the saturating sum
`min (1 + 1) 63 = 2` is not an element of `decomposedUaddSat x y = [0, 2)`: the
clamped maximum is passed to `getNonEmpty` as the exclusive upper bound. -/
theorem decomposedUaddSat_unsound_at_width_6 :
    (∃ L, getConstantRangesForBitwidth 65 6 = some L ∧
        ConstantRange.mk (mkAPInt 6 0) (mkAPInt 6 2) ∈ L) ∧
      (ConstantRange.mk (mkAPInt 6 0) (mkAPInt 6 2)).contains (mkAPInt 6 1) ∧
      decomposedUaddSat ⟨mkAPInt 6 0, mkAPInt 6 2⟩ ⟨mkAPInt 6 0, mkAPInt 6 2⟩ =
        ⟨mkAPInt 6 0, mkAPInt 6 2⟩ ∧
      ¬ (decomposedUaddSat ⟨mkAPInt 6 0, mkAPInt 6 2⟩ ⟨mkAPInt 6 0, mkAPInt 6 2⟩).contains
        (mkAPInt 6 (min (1 + 1) (2 ^ 6 - 1))) := by
  refine ⟨⟨allRangesSpec 6, getConstantRangesForBitwidth_eq 6 (by decide) 65 (by decide), ?_⟩,
    by decide, by decide, by decide⟩
  rw [mem_allRangesSpec]
  exact ⟨0, 2, by decide, by decide, by decide⟩

/-- C2: soundness of `DirectSat` (the reference `uadd_sat`).  For non-empty ranges
`x`, `y` of width `w` and values `a ∈ x`, `b ∈ y`, the saturating sum
`min (a + b) (2^w - 1)` is an element of `x.uadd_sat y`, whose unsigned minimum is
`min (min x + min y) (2^w - 1)` and whose unsigned maximum is
`min (max x + max y) (2^w - 1)`. -/
theorem uadd_sat_sound (w a b : Nat) (x y : ConstantRange) (hx : x.WellFormed w)
    (hy : y.WellFormed w) (hxne : ¬ x.isEmptySet) (hyne : ¬ y.isEmptySet)
    (ha : a < 2 ^ w) (hb : b < 2 ^ w) (hax : x.contains (mkAPInt w a))
    (hby : y.contains (mkAPInt w b)) :
    (x.uadd_sat y).contains (mkAPInt w (min (a + b) (2 ^ w - 1))) ∧
      (x.uadd_sat y).getUnsignedMin =
        ⟨w, min (x.getUnsignedMin.VAL + y.getUnsignedMin.VAL) (2 ^ w - 1)⟩ ∧
      (x.uadd_sat y).getUnsignedMax =
        ⟨w, min (x.getUnsignedMax.VAL + y.getUnsignedMax.VAL) (2 ^ w - 1)⟩ := by
  rw [mkAPInt_of_lt w a ha] at hax
  rw [mkAPInt_of_lt w b hb] at hby
  obtain ⟨L, U, hLU, hU, hL, hU', h1, h2, heq⟩ :=
    uadd_sat_eq_getNonEmpty w a b x y hx hy hxne hyne ha hb hax hby
  obtain ⟨hmin, hmax, hmem⟩ := getNonEmpty_succ w L U hLU hU
  have hs : min (a + b) (2 ^ w - 1) < 2 ^ w := by omega
  rw [mkAPInt_of_lt w _ hs, heq, hmin, hmax, ← hL, ← hU']
  exact ⟨(hmem _ hs).mpr ⟨h1, h2⟩, rfl, rfl⟩

/-- Witness of C2 at width 2: `x = [1, 3)`, `y = [2, 0)` (the set `{2, 3}`),
`a = 2`, `b = 3`. -/
theorem uadd_sat_sound_witness :
    ((ConstantRange.mk ⟨2, 1⟩ ⟨2, 3⟩).WellFormed 2 ∧
        (ConstantRange.mk ⟨2, 2⟩ ⟨2, 0⟩).WellFormed 2 ∧
        ¬ (ConstantRange.mk ⟨2, 1⟩ ⟨2, 3⟩).isEmptySet ∧
        ¬ (ConstantRange.mk ⟨2, 2⟩ ⟨2, 0⟩).isEmptySet ∧
        (ConstantRange.mk ⟨2, 1⟩ ⟨2, 3⟩).contains (mkAPInt 2 2) ∧
        (ConstantRange.mk ⟨2, 2⟩ ⟨2, 0⟩).contains (mkAPInt 2 3)) ∧
      ((ConstantRange.uadd_sat ⟨⟨2, 1⟩, ⟨2, 3⟩⟩ ⟨⟨2, 2⟩, ⟨2, 0⟩⟩).contains
          (mkAPInt 2 (min (2 + 3) (2 ^ 2 - 1))) ∧
        (ConstantRange.uadd_sat ⟨⟨2, 1⟩, ⟨2, 3⟩⟩ ⟨⟨2, 2⟩, ⟨2, 0⟩⟩).getUnsignedMin =
          ⟨2, min ((ConstantRange.mk ⟨2, 1⟩ ⟨2, 3⟩).getUnsignedMin.VAL +
            (ConstantRange.mk ⟨2, 2⟩ ⟨2, 0⟩).getUnsignedMin.VAL) (2 ^ 2 - 1)⟩ ∧
        (ConstantRange.uadd_sat ⟨⟨2, 1⟩, ⟨2, 3⟩⟩ ⟨⟨2, 2⟩, ⟨2, 0⟩⟩).getUnsignedMax =
          ⟨2, min ((ConstantRange.mk ⟨2, 1⟩ ⟨2, 3⟩).getUnsignedMax.VAL +
            (ConstantRange.mk ⟨2, 2⟩ ⟨2, 0⟩).getUnsignedMax.VAL) (2 ^ 2 - 1)⟩) :=
  ⟨by decide,
    uadd_sat_sound 2 2 3 ⟨⟨2, 1⟩, ⟨2, 3⟩⟩ ⟨⟨2, 2⟩, ⟨2, 0⟩⟩ (by decide) (by decide) (by decide)
      (by decide) (by decide) (by decide) (by decide) (by decide)⟩

/-- C3: exactness on singletons fails for `decomposedUaddSat`.  At width 2 the
reference `uadd_sat` maps `{3}`, `{1}` to the singleton `{min (3 + 1) 3} = {3}`, but
`extendRangeBitWidth` turns `{3} = [3, 0)` into `[3, 0)` at width 3, and
`decomposedUaddSat` returns `[0, 3)`, which does not contain 3. -/
theorem decomposedUaddSat_singleton_max_value :
    ConstantRange.uadd_sat (ConstantRange.single (mkAPInt 2 3))
        (ConstantRange.single (mkAPInt 2 1)) =
        ConstantRange.single (mkAPInt 2 (min (3 + 1) (2 ^ 2 - 1))) ∧
      extendRangeBitWidth (ConstantRange.single (mkAPInt 2 3)) = ⟨⟨3, 3⟩, ⟨3, 0⟩⟩ ∧
      decomposedUaddSat (ConstantRange.single (mkAPInt 2 3))
        (ConstantRange.single (mkAPInt 2 1)) = ⟨⟨2, 0⟩, ⟨2, 3⟩⟩ ∧
      decomposedUaddSat (ConstantRange.single (mkAPInt 2 3))
        (ConstantRange.single (mkAPInt 2 1)) ≠
        ConstantRange.single (mkAPInt 2 (min (3 + 1) (2 ^ 2 - 1))) ∧
      ¬ (decomposedUaddSat (ConstantRange.single (mkAPInt 2 3))
        (ConstantRange.single (mkAPInt 2 1))).contains (mkAPInt 2 (min (3 + 1) (2 ^ 2 - 1))) := by
  decide

/-- C4: the scenario at width 2 with `x = [1, 3)` and `y = [2, 4)` (stored as
`[2, 0)`).  The reference result is the singleton `{3}`, but `decomposedUaddSat x y`
is `[0, 3)` and the harness counts the pair as incomparable, not as equal. -/
theorem scenario_width_2_incomparable :
    ConstantRange.uadd_sat ⟨mkAPInt 2 1, mkAPInt 2 3⟩ ⟨mkAPInt 2 2, mkAPInt 2 4⟩ =
        ConstantRange.single (mkAPInt 2 3) ∧
      decomposedUaddSat ⟨mkAPInt 2 1, mkAPInt 2 3⟩ ⟨mkAPInt 2 2, mkAPInt 2 4⟩ =
        ⟨⟨2, 0⟩, ⟨2, 3⟩⟩ ∧
      decomposedUaddSat ⟨mkAPInt 2 1, mkAPInt 2 3⟩ ⟨mkAPInt 2 2, mkAPInt 2 4⟩ ≠
        ConstantRange.single (mkAPInt 2 3) ∧
      mainBody Counters.zero ⟨mkAPInt 2 1, mkAPInt 2 3⟩ ⟨mkAPInt 2 2, mkAPInt 2 4⟩ =
        { total := 1, numDecomposedBetter := 0, numDecomposedWorse := 0, numEqual := 0,
          numIncomparable := 1 } := by
  decide

/-- C5: the result construction of `decomposedUaddSat` is not `[L, U + 1)`.  At
width 6, `x = [1, 3)` and `y = [2, 5)` give `L = min (1 + 2) 63 = 3` and
`U = min (2 + 4) 63 = 6`; the code returns `[3, 6)`, not `[3, 7)`, so `U` is not an
element of the result. -/
theorem decomposedUaddSat_excludes_upper :
    (ConstantRange.mk (mkAPInt 6 1) (mkAPInt 6 3)).getUnsignedMin.VAL +
        (ConstantRange.mk (mkAPInt 6 2) (mkAPInt 6 5)).getUnsignedMin.VAL = 3 ∧
      (ConstantRange.mk (mkAPInt 6 1) (mkAPInt 6 3)).getUnsignedMax.VAL +
        (ConstantRange.mk (mkAPInt 6 2) (mkAPInt 6 5)).getUnsignedMax.VAL = 6 ∧
      decomposedUaddSat ⟨mkAPInt 6 1, mkAPInt 6 3⟩ ⟨mkAPInt 6 2, mkAPInt 6 5⟩ =
        ⟨mkAPInt 6 3, mkAPInt 6 6⟩ ∧
      decomposedUaddSat ⟨mkAPInt 6 1, mkAPInt 6 3⟩ ⟨mkAPInt 6 2, mkAPInt 6 5⟩ ≠
        ⟨mkAPInt 6 3, mkAPInt 6 (6 + 1)⟩ ∧
      ¬ (decomposedUaddSat ⟨mkAPInt 6 1, mkAPInt 6 3⟩ ⟨mkAPInt 6 2, mkAPInt 6 5⟩).contains
        (mkAPInt 6 6) := by
  decide

/-- C6: counter conservation.  At every point of the harness loops (after the rows
`xs` and the pairs `(x, y')` for `y'` in `ys`), and at the end of a run over any
list of ranges, `numEqual + numDecomposedBetter + numDecomposedWorse +
numIncomparable == total` in the 64-bit arithmetic of the counters, and as natural
numbers while fewer than `2^64` pairs have been processed; one pass through the
loop body increments `total` and exactly one of the four other counters. -/
theorem mainLoop_counter_conservation (rangesToTest xs ys : List ConstantRange)
    (x y : ConstantRange) (c : Counters) :
    (mainInner x ys (mainOuter rangesToTest xs Counters.zero)).classified % 2 ^ 64 =
        (mainInner x ys (mainOuter rangesToTest xs Counters.zero)).total ∧
      (xs.length * rangesToTest.length + ys.length < 2 ^ 64 →
        (mainInner x ys (mainOuter rangesToTest xs Counters.zero)).classified =
          (mainInner x ys (mainOuter rangesToTest xs Counters.zero)).total) ∧
      (mainLoop rangesToTest).classified % 2 ^ 64 = (mainLoop rangesToTest).total ∧
      (rangesToTest.length * rangesToTest.length < 2 ^ 64 →
        (mainLoop rangesToTest).classified = (mainLoop rangesToTest).total) ∧
      (mainBody c x y =
          { c with total := incr64 c.total, numEqual := incr64 c.numEqual } ∨
        mainBody c x y =
          { c with total := incr64 c.total,
                   numDecomposedBetter := incr64 c.numDecomposedBetter } ∨
        mainBody c x y =
          { c with total := incr64 c.total,
                   numDecomposedWorse := incr64 c.numDecomposedWorse } ∨
        mainBody c x y =
          { c with total := incr64 c.total, numIncomparable := incr64 c.numIncomparable }) := by
  obtain ⟨h1, h2, h3⟩ := mainProgress_inv rangesToTest xs ys x
  have h := mainOuter_inv rangesToTest rangesToTest _ _ Counters.zero_inv
  rw [Nat.zero_add] at h
  obtain ⟨h4, h5, h6⟩ := h
  refine ⟨by omega, fun hn => ?_, ?_, fun hn => ?_, mainBody_cases c x y⟩
  · have := h3 hn
    omega
  · unfold mainLoop
    omega
  · unfold mainLoop
    have := h6 hn
    omega

/-- Witness of C6: one row and one further pair over two ranges of width 2. -/
theorem mainLoop_counter_conservation_witness :
    ([ConstantRange.mk ⟨2, 0⟩ ⟨2, 1⟩].length *
          [ConstantRange.mk ⟨2, 0⟩ ⟨2, 1⟩, ConstantRange.mk ⟨2, 1⟩ ⟨2, 3⟩].length +
        [ConstantRange.mk ⟨2, 0⟩ ⟨2, 1⟩].length < 2 ^ 64) ∧
      (mainInner ⟨⟨2, 1⟩, ⟨2, 3⟩⟩ [⟨⟨2, 0⟩, ⟨2, 1⟩⟩]
          (mainOuter [⟨⟨2, 0⟩, ⟨2, 1⟩⟩, ⟨⟨2, 1⟩, ⟨2, 3⟩⟩] [⟨⟨2, 0⟩, ⟨2, 1⟩⟩]
            Counters.zero)).classified =
        (mainInner ⟨⟨2, 1⟩, ⟨2, 3⟩⟩ [⟨⟨2, 0⟩, ⟨2, 1⟩⟩]
          (mainOuter [⟨⟨2, 0⟩, ⟨2, 1⟩⟩, ⟨⟨2, 1⟩, ⟨2, 3⟩⟩] [⟨⟨2, 0⟩, ⟨2, 1⟩⟩]
            Counters.zero)).total :=
  ⟨by decide,
    (mainLoop_counter_conservation [⟨⟨2, 0⟩, ⟨2, 1⟩⟩, ⟨⟨2, 1⟩, ⟨2, 3⟩⟩] [⟨⟨2, 0⟩, ⟨2, 1⟩⟩]
      [⟨⟨2, 0⟩, ⟨2, 1⟩⟩] ⟨⟨2, 1⟩, ⟨2, 3⟩⟩ ⟨⟨2, 0⟩, ⟨2, 1⟩⟩ Counters.zero).2.1 (by decide)⟩

/-- C7: for a bit width `w ≤ 31` (in particular `1 ≤ w ≤ 31`) with `maxVal = 2^w - 1`,
`getConstantRangesForBitwidth w` returns (with any fuel above `2^w`, and with no
other result for any fuel) exactly the ranges `[lo, hi)` for `lo = 0..maxVal`
ascending and within each `lo`, `hi = lo+1..maxVal` ascending: `[lo, hi)` occurs iff
`lo < hi ≤ maxVal`, no range occurs twice, and the list is strictly increasing in
the lexicographic order on `(lo, hi)`. -/
theorem getConstantRangesForBitwidth_sequence (w : Nat) (h31 : w ≤ 31) :
    ∃ L : List ConstantRange,
      (∀ fuel, 2 ^ w < fuel → getConstantRangesForBitwidth fuel w = some L) ∧
      (∀ fuel L', getConstantRangesForBitwidth fuel w = some L' → L' = L) ∧
      L = ((List.range (2 ^ w - 1 + 1)).flatMap fun lo =>
        (List.range' (lo + 1) (2 ^ w - 1 - lo)).map fun hi =>
          ConstantRange.mk ⟨w, lo⟩ ⟨w, hi⟩) ∧
      (∀ r, r ∈ L ↔ ∃ lo hi, lo < hi ∧ hi ≤ 2 ^ w - 1 ∧ r = ConstantRange.mk ⟨w, lo⟩ ⟨w, hi⟩) ∧
      L.Nodup ∧ L.Pairwise ConstantRange.lexLt := by
  have hpos : 0 < 2 ^ w := Nat.pos_of_ne_zero (by positivity)
  refine ⟨allRangesSpec w, fun fuel hf => getConstantRangesForBitwidth_eq w h31 fuel hf,
    fun fuel L' h => getConstantRangesForBitwidth_unique w h31 fuel L' h, ?_,
    mem_allRangesSpec w, nodup_allRangesSpec w, pairwise_allRangesSpec w⟩
  rw [Nat.sub_add_cancel hpos]
  rfl

/-- Witness of C7 at width 3. -/
theorem getConstantRangesForBitwidth_sequence_witness :
    3 ≤ 31 ∧ ∃ L : List ConstantRange,
      (∀ fuel, 2 ^ 3 < fuel → getConstantRangesForBitwidth fuel 3 = some L) ∧
      (∀ fuel L', getConstantRangesForBitwidth fuel 3 = some L' → L' = L) ∧
      L = ((List.range (2 ^ 3 - 1 + 1)).flatMap fun lo =>
        (List.range' (lo + 1) (2 ^ 3 - 1 - lo)).map fun hi =>
          ConstantRange.mk ⟨3, lo⟩ ⟨3, hi⟩) ∧
      (∀ r, r ∈ L ↔ ∃ lo hi, lo < hi ∧ hi ≤ 2 ^ 3 - 1 ∧ r = ConstantRange.mk ⟨3, lo⟩ ⟨3, hi⟩) ∧
      L.Nodup ∧ L.Pairwise ConstantRange.lexLt :=
  ⟨by decide, getConstantRangesForBitwidth_sequence 3 (by decide)⟩

/-- C8: enumeration count.  For `w ≤ 31` (in particular `1 ≤ w ≤ 31`) and
`maxVal = 2^w - 1`, the list returned by `getConstantRangesForBitwidth w` has length
`Σ_{lo=0}^{maxVal} (maxVal - lo) = maxVal * (maxVal + 1) / 2`; it is 28 for `w = 3`
and 2016 for `w = 6`. -/
theorem getConstantRangesForBitwidth_length (w : Nat) (h31 : w ≤ 31) :
    ∃ L : List ConstantRange,
      (∀ fuel, 2 ^ w < fuel → getConstantRangesForBitwidth fuel w = some L) ∧
      L.length = ((List.range (2 ^ w - 1 + 1)).map fun lo => 2 ^ w - 1 - lo).sum ∧
      L.length = (2 ^ w - 1) * (2 ^ w - 1 + 1) / 2 ∧
      (w = 3 → L.length = 28) ∧ (w = 6 → L.length = 2016) := by
  have hpos : 0 < 2 ^ w := Nat.pos_of_ne_zero (by positivity)
  obtain ⟨hsum, hsq⟩ := length_allRangesSpec w
  have hform : (allRangesSpec w).length = (2 ^ w - 1) * (2 ^ w - 1 + 1) / 2 := by
    rw [Nat.sub_add_cancel hpos]
    have h2 : (2 ^ w - 1) * 2 ^ w = (allRangesSpec w).length * 2 := by
      rw [Nat.sub_mul]
      omega
    rw [h2, Nat.mul_div_cancel _ (by norm_num)]
  refine ⟨allRangesSpec w, fun fuel hf => getConstantRangesForBitwidth_eq w h31 fuel hf,
    hsum, hform, fun h3 => ?_, fun h6 => ?_⟩
  · rw [hform, h3]; norm_num
  · rw [hform, h6]; norm_num

/-- Witness of C8 at the reference width 6. -/
theorem getConstantRangesForBitwidth_length_witness :
    6 ≤ 31 ∧ ∃ L : List ConstantRange,
      (∀ fuel, 2 ^ 6 < fuel → getConstantRangesForBitwidth fuel 6 = some L) ∧
      L.length = ((List.range (2 ^ 6 - 1 + 1)).map fun lo => 2 ^ 6 - 1 - lo).sum ∧
      L.length = (2 ^ 6 - 1) * (2 ^ 6 - 1 + 1) / 2 ∧
      (6 = 3 → L.length = 28) ∧ (6 = 6 → L.length = 2016) :=
  ⟨by decide, getConstantRangesForBitwidth_length 6 (by decide)⟩

/-- C9, as stated, fails: at width 2 the enumerator returns six ranges, and none of
them denotes the set `{2, 3}` (whose largest element is `2^2 - 1`), for any fuel; at
width 32 it returns no list at all. -/
theorem enumerator_misses_top_set :
    getConstantRangesForBitwidth 5 2 = some
        [⟨⟨2, 0⟩, ⟨2, 1⟩⟩, ⟨⟨2, 0⟩, ⟨2, 2⟩⟩, ⟨⟨2, 0⟩, ⟨2, 3⟩⟩, ⟨⟨2, 1⟩, ⟨2, 2⟩⟩,
          ⟨⟨2, 1⟩, ⟨2, 3⟩⟩, ⟨⟨2, 2⟩, ⟨2, 3⟩⟩] ∧
      (¬ ∃ fuel L, getConstantRangesForBitwidth fuel 2 = some L ∧
        ∃ r, r ∈ L ∧ r.denotes 2 2 3) ∧
      (¬ ∃ fuel L, getConstantRangesForBitwidth fuel 32 = some L) := by
  refine ⟨by decide, ?_, ?_⟩
  swap
  · rintro ⟨fuel, L, hL⟩
    unfold getConstantRangesForBitwidth at hL
    rw [maxValUnsigned_eq 32 (by decide), outer_diverges 32 fuel []] at hL
    exact absurd hL (by simp)
  rintro ⟨fuel, L, hL, r, hr, -, hden⟩
  rw [getConstantRangesForBitwidth_unique 2 (by decide) fuel L hL, mem_allRangesSpec] at hr
  obtain ⟨lo, hi, h1, h2, rfl⟩ := hr
  have h3 := (hden 3 (by decide)).mpr ⟨by decide, by decide⟩
  have hne : lo ≠ hi := by omega
  have hnw : ¬ hi < lo := by omega
  simp [ConstantRange.contains, ConstantRange.isUpperWrapped, mkAPInt, hne, hnw] at h3
  omega

/-- C9, amended: for `w ≤ 31` and every set `{a, ..., b}` with `a ≤ b ≤ 2^w - 2`, some
range returned by `getConstantRangesForBitwidth w` denotes exactly that set; no
returned range contains `2^w - 1`. -/
theorem enumerator_complete_below_top (w a b : Nat) (h31 : w ≤ 31) (hab : a ≤ b)
    (hb : b + 2 ≤ 2 ^ w) :
    ∃ L : List ConstantRange,
      (∀ fuel, 2 ^ w < fuel → getConstantRangesForBitwidth fuel w = some L) ∧
      (∃ r, r ∈ L ∧ r.denotes w a b) ∧
      (∀ r, r ∈ L → ¬ r.contains (mkAPInt w (2 ^ w - 1))) := by
  refine ⟨allRangesSpec w, fun fuel hf => getConstantRangesForBitwidth_eq w h31 fuel hf,
    ⟨⟨⟨w, a⟩, ⟨w, b + 1⟩⟩, ?_, rfl, ?_⟩, ?_⟩
  · rw [mem_allRangesSpec]
    exact ⟨a, b + 1, by omega, by omega, rfl⟩
  · intro v hv
    have hne : a ≠ b + 1 := by omega
    have hnw : ¬ b + 1 < a := by omega
    simp only [ConstantRange.contains, ConstantRange.isUpperWrapped, mkAPInt_of_lt w v hv, hne,
      hnw, if_false, not_false_eq_true, if_true]
    omega
  · intro r hr
    rw [mem_allRangesSpec] at hr
    obtain ⟨lo, hi, h1, h2, rfl⟩ := hr
    have hne : lo ≠ hi := by omega
    have hnw : ¬ hi < lo := by omega
    rw [mkAPInt_of_lt w _ (by omega)]
    simp only [ConstantRange.contains, ConstantRange.isUpperWrapped, hne, hnw, if_false,
      not_false_eq_true, if_true]
    omega

/-- Witness of the amended C9 at width 2: the set `{1, 2}`. -/
theorem enumerator_complete_below_top_witness :
    (2 ≤ 31 ∧ 1 ≤ 2 ∧ 2 + 2 ≤ 2 ^ 2) ∧
      ∃ L : List ConstantRange,
        (∀ fuel, 2 ^ 2 < fuel → getConstantRangesForBitwidth fuel 2 = some L) ∧
        (∃ r, r ∈ L ∧ r.denotes 2 1 2) ∧
        (∀ r, r ∈ L → ¬ r.contains (mkAPInt 2 (2 ^ 2 - 1))) :=
  ⟨by decide, enumerator_complete_below_top 2 1 2 (by decide) (by decide) (by decide)⟩

/-- C10: termination of the enumerator fails at the admitted width 32 (the
function asserts `bitwidth <= 32`).  There `maxVal` is `2^32 - 1`, the tests
`lo <= maxVal` and `hi <= maxVal` on 32-bit unsigned counters are always true, and
`getConstantRangesForBitwidth` returns no list, whatever the number of iterations
allowed. -/
theorem getConstantRangesForBitwidth_32_never_returns (fuel : Nat) :
    maxValUnsigned 32 = 2 ^ 32 - 1 ∧ getConstantRangesForBitwidth fuel 32 = none := by
  refine ⟨by decide, ?_⟩
  unfold getConstantRangesForBitwidth
  rw [maxValUnsigned_eq 32 (by decide)]
  exact outer_diverges 32 fuel []

/-- C11: for a bit width `w ≤ 32` and a range `r = [lo, hi)` with `lo < hi ≤ 2^w`
(the bound `2^w` is stored as 0), `getConcreteValuesForDomain r` is exactly the
sequence `lo, lo+1, ..., hi-1` of `w`-bit values; its length is `hi - lo`, which is
at least 1.  In particular every range the enumerator returns has at least one
concrete value. -/
theorem getConcreteValuesForDomain_sequence (w lo hi : Nat) (_hw : w ≤ 32) (h : lo < hi)
    (hhi : hi ≤ 2 ^ w) :
    getConcreteValuesForDomain ⟨mkAPInt w lo, mkAPInt w hi⟩ =
        (List.range' lo (hi - lo)).map (fun v => APInt.mk w v) ∧
      (getConcreteValuesForDomain ⟨mkAPInt w lo, mkAPInt w hi⟩).length = hi - lo ∧
      1 ≤ (getConcreteValuesForDomain ⟨mkAPInt w lo, mkAPInt w hi⟩).length ∧
      (w ≤ 31 → ∀ fuel L, getConstantRangesForBitwidth fuel w = some L → ∀ r, r ∈ L →
        getConcreteValuesForDomain r =
            (List.range' r.Lower.VAL (r.Upper.VAL - r.Lower.VAL)).map (fun v => APInt.mk w v) ∧
          1 ≤ (getConcreteValuesForDomain r).length) := by
  have key : ∀ a b, a < b → b ≤ 2 ^ w →
      getConcreteValuesForDomain ⟨mkAPInt w a, mkAPInt w b⟩ =
        (List.range' a (b - a)).map (fun v => APInt.mk w v) := by
    intro a b hab hb
    have hmm : (ConstantRange.mk (mkAPInt w a) (mkAPInt w b)).getUnsignedMin.VAL = a ∧
        (ConstantRange.mk (mkAPInt w a) (mkAPInt w b)).getUnsignedMax.VAL = b - 1 ∧
        (ConstantRange.mk (mkAPInt w a) (mkAPInt w b)).getBitWidth = w := by
      rw [mkAPInt_of_lt w a (by omega)]
      rcases Nat.lt_or_ge b (2 ^ w) with hlt | hge
      · rw [mkAPInt_of_lt w b hlt]
        obtain ⟨h1, h2⟩ := minmax_nonwrapped w a b hab hlt
        rw [h1, h2]
        exact ⟨rfl, rfl, rfl⟩
      · have hbe : b = 2 ^ w := by omega
        have hz : mkAPInt w b = ⟨w, 0⟩ := by simp [mkAPInt, hbe]
        rw [hz]
        rcases Nat.eq_zero_or_pos a with ha | ha
        · subst ha
          refine ⟨?_, ?_, rfl⟩
          · simp only [ConstantRange.getUnsignedMin, ConstantRange.isFullSet,
              ConstantRange.isWrappedSet, APInt.getMinValue, ConstantRange.getLower]
            split_ifs <;> rfl
          · have hP : (0 + (2 ^ w - 1)) % 2 ^ w = 2 ^ w - 1 := by
              rw [Nat.zero_add]
              exact Nat.mod_eq_of_lt (by omega)
            simp only [ConstantRange.getUnsignedMax, ConstantRange.isFullSet,
              ConstantRange.isUpperWrapped, APInt.getMaxValue, ConstantRange.getUpper,
              APInt.pred, hP, ConstantRange.getBitWidth]
            split_ifs <;> simp only <;> omega
        · obtain ⟨h1, h2⟩ := minmax_upper_at_top w a ha
          rw [h1, h2]
          refine ⟨rfl, ?_, rfl⟩
          show 2 ^ w - 1 = b - 1
          omega
    obtain ⟨h1, h2, h3⟩ := hmm
    simp only [getConcreteValuesForDomain, APInt.getZExtValue, h1, h2, h3]
    rw [show b - 1 + 1 - a = b - a by omega]
    apply List.map_congr_left
    intro v hv
    rw [List.mem_range'_1] at hv
    exact mkAPInt_of_lt w v (by omega)
  refine ⟨key lo hi h hhi, ?_, ?_, ?_⟩
  · rw [key lo hi h hhi]; simp
  · rw [key lo hi h hhi]; simp; omega
  · intro h31 fuel L hL r hr
    rw [getConstantRangesForBitwidth_unique w h31 fuel L hL, mem_allRangesSpec] at hr
    obtain ⟨a, b, hab, hb, rfl⟩ := hr
    have hk := key a b hab (by omega)
    rw [mkAPInt_of_lt w a (by omega), mkAPInt_of_lt w b (by omega)] at hk
    rw [hk]
    refine ⟨rfl, ?_⟩
    simp
    omega

/-- Witness of C11 at the reference width 6: the range `[5, 9)`. -/
theorem getConcreteValuesForDomain_sequence_witness :
    (6 ≤ 32 ∧ 5 < 9 ∧ 9 ≤ 2 ^ 6) ∧
      getConcreteValuesForDomain ⟨mkAPInt 6 5, mkAPInt 6 9⟩ =
        [⟨6, 5⟩, ⟨6, 6⟩, ⟨6, 7⟩, ⟨6, 8⟩] :=
  ⟨by decide,
    (getConcreteValuesForDomain_sequence 6 5 9 (by decide) (by decide) (by decide)).1⟩

/-- C12, as stated, fails.  At width 2 the wrapped range `[3, 1)` (the set `{3, 0}`,
non-empty and not full) is extended to `[3, 1)` at width 3, which has maximum 7
instead of 3 and contains 5; the single-value range `{3}`, stored as `[3, 0)`, is
extended to `[3, 0)` at width 3, which also has maximum 7 and contains 5. -/
theorem extendRangeBitWidth_changes_set :
    ((ConstantRange.mk ⟨2, 3⟩ ⟨2, 1⟩).WellFormed 2 ∧
        ¬ (ConstantRange.mk ⟨2, 3⟩ ⟨2, 1⟩).isEmptySet ∧
        ¬ (ConstantRange.mk ⟨2, 3⟩ ⟨2, 1⟩).isFullSet ∧
        (ConstantRange.mk ⟨2, 3⟩ ⟨2, 1⟩).getUnsignedMax = ⟨2, 3⟩ ∧
        extendRangeBitWidth ⟨⟨2, 3⟩, ⟨2, 1⟩⟩ = ⟨⟨3, 3⟩, ⟨3, 1⟩⟩ ∧
        (extendRangeBitWidth ⟨⟨2, 3⟩, ⟨2, 1⟩⟩).getUnsignedMax = ⟨3, 7⟩ ∧
        (extendRangeBitWidth ⟨⟨2, 3⟩, ⟨2, 1⟩⟩).contains ⟨3, 5⟩) ∧
      ((ConstantRange.single (mkAPInt 2 3)).WellFormed 2 ∧
        ¬ (ConstantRange.single (mkAPInt 2 3)).isEmptySet ∧
        ¬ (ConstantRange.single (mkAPInt 2 3)).isFullSet ∧
        (ConstantRange.single (mkAPInt 2 3)).getUnsignedMax = ⟨2, 3⟩ ∧
        extendRangeBitWidth (ConstantRange.single (mkAPInt 2 3)) = ⟨⟨3, 3⟩, ⟨3, 0⟩⟩ ∧
        (extendRangeBitWidth (ConstantRange.single (mkAPInt 2 3))).getUnsignedMax = ⟨3, 7⟩ ∧
        (extendRangeBitWidth (ConstantRange.single (mkAPInt 2 3))).contains ⟨3, 5⟩) := by
  decide

/-- C12, amended: for a non-wrapping range `r = [lo, hi)` of width `w` with stored
bounds `lo < hi ≤ 2^w - 1`, `extendRangeBitWidth r` is the range `[lo, hi)` of width
`w + 1`; it has the same unsigned minimum, the same unsigned maximum and the same
elements as `r`. -/
theorem extendRangeBitWidth_nonwrapped (w lo hi : Nat) (h : lo < hi) (hhi : hi < 2 ^ w) :
    extendRangeBitWidth ⟨⟨w, lo⟩, ⟨w, hi⟩⟩ = ⟨⟨w + 1, lo⟩, ⟨w + 1, hi⟩⟩ ∧
      (extendRangeBitWidth ⟨⟨w, lo⟩, ⟨w, hi⟩⟩).getBitWidth = w + 1 ∧
      (extendRangeBitWidth ⟨⟨w, lo⟩, ⟨w, hi⟩⟩).getUnsignedMin.VAL =
        (ConstantRange.mk ⟨w, lo⟩ ⟨w, hi⟩).getUnsignedMin.VAL ∧
      (extendRangeBitWidth ⟨⟨w, lo⟩, ⟨w, hi⟩⟩).getUnsignedMax.VAL =
        (ConstantRange.mk ⟨w, lo⟩ ⟨w, hi⟩).getUnsignedMax.VAL ∧
      ∀ v, (extendRangeBitWidth ⟨⟨w, lo⟩, ⟨w, hi⟩⟩).contains ⟨w + 1, v⟩ ↔
        (ConstantRange.mk ⟨w, lo⟩ ⟨w, hi⟩).contains ⟨w, v⟩ := by
  have hpow : 2 ^ (w + 1) = 2 * 2 ^ w := by rw [Nat.pow_succ]; omega
  have hext : extendRangeBitWidth ⟨⟨w, lo⟩, ⟨w, hi⟩⟩ = ⟨⟨w + 1, lo⟩, ⟨w + 1, hi⟩⟩ := by
    simp only [extendRangeBitWidth, extendAPInt, ConstantRange.getLower, ConstantRange.getUpper,
      APInt.getBitWidth, APInt.getZExtValue, mkAPInt_of_lt (w + 1) lo (by omega),
      mkAPInt_of_lt (w + 1) hi (by omega)]
  obtain ⟨h1, h2⟩ := minmax_nonwrapped w lo hi h hhi
  obtain ⟨h3, h4⟩ := minmax_nonwrapped (w + 1) lo hi h (by omega)
  rw [hext, h1, h2, h3, h4]
  refine ⟨rfl, rfl, rfl, rfl, fun v => ?_⟩
  have hne : lo ≠ hi := by omega
  have hnu : ¬ hi < lo := by omega
  simp only [ConstantRange.contains, ConstantRange.isUpperWrapped, hne, hnu, if_false,
    not_false_eq_true, if_true]

/-- Witness of the amended C12 at width 2: the range `[1, 3)`. -/
theorem extendRangeBitWidth_nonwrapped_witness :
    (1 < 3 ∧ 3 < 2 ^ 2) ∧
      extendRangeBitWidth ⟨⟨2, 1⟩, ⟨2, 3⟩⟩ = ⟨⟨2 + 1, 1⟩, ⟨2 + 1, 3⟩⟩ :=
  ⟨by decide, (extendRangeBitWidth_nonwrapped 2 1 3 (by decide) (by decide)).1⟩

/-- C13, as stated, fails.  At width 2, for the wrapped range `x = [3, 1)` (the set
`{3, 0}`) and `y = {1}`, the extended sum is `[4, 2)` at width 3: a wrapped range
with minimum 0 and maximum 7, while `min x + min y = 1` and `max x + max y = 4`.
For `x = {3}` (stored as `[3, 0)`) and `y = {1}` the extended sum is `[4, 1)`, again
wrapped with minimum 0 and maximum 7, while `min x + min y = max x + max y = 4`. -/
theorem extended_sum_wraps :
    ((ConstantRange.mk ⟨2, 3⟩ ⟨2, 1⟩).WellFormed 2 ∧
        ¬ (ConstantRange.mk ⟨2, 3⟩ ⟨2, 1⟩).isEmptySet ∧
        (extendRangeBitWidth ⟨⟨2, 3⟩, ⟨2, 1⟩⟩).add
            (extendRangeBitWidth (ConstantRange.single (mkAPInt 2 1))) = ⟨⟨3, 4⟩, ⟨3, 2⟩⟩ ∧
        ((extendRangeBitWidth ⟨⟨2, 3⟩, ⟨2, 1⟩⟩).add
            (extendRangeBitWidth (ConstantRange.single (mkAPInt 2 1)))).isWrappedSet ∧
        ((extendRangeBitWidth ⟨⟨2, 3⟩, ⟨2, 1⟩⟩).add
            (extendRangeBitWidth (ConstantRange.single (mkAPInt 2 1)))).getUnsignedMin.VAL = 0 ∧
        (ConstantRange.mk ⟨2, 3⟩ ⟨2, 1⟩).getUnsignedMin.VAL +
            (ConstantRange.single (mkAPInt 2 1)).getUnsignedMin.VAL = 1 ∧
        ((extendRangeBitWidth ⟨⟨2, 3⟩, ⟨2, 1⟩⟩).add
            (extendRangeBitWidth (ConstantRange.single (mkAPInt 2 1)))).getUnsignedMax.VAL = 7 ∧
        (ConstantRange.mk ⟨2, 3⟩ ⟨2, 1⟩).getUnsignedMax.VAL +
            (ConstantRange.single (mkAPInt 2 1)).getUnsignedMax.VAL = 4) ∧
      ((extendRangeBitWidth (ConstantRange.single (mkAPInt 2 3))).add
            (extendRangeBitWidth (ConstantRange.single (mkAPInt 2 1))) = ⟨⟨3, 4⟩, ⟨3, 1⟩⟩ ∧
        ((extendRangeBitWidth (ConstantRange.single (mkAPInt 2 3))).add
            (extendRangeBitWidth (ConstantRange.single (mkAPInt 2 1)))).isWrappedSet ∧
        ((extendRangeBitWidth (ConstantRange.single (mkAPInt 2 3))).add
            (extendRangeBitWidth (ConstantRange.single (mkAPInt 2 1)))).getUnsignedMin.VAL = 0 ∧
        (ConstantRange.single (mkAPInt 2 3)).getUnsignedMin.VAL +
            (ConstantRange.single (mkAPInt 2 1)).getUnsignedMin.VAL = 4) := by
  decide

/-- C13, amended: for non-wrapping ranges `x = [xl, xh)`, `y = [yl, yh)` of width `w`
with stored bounds `xl < xh ≤ 2^w - 1`, `yl < yh ≤ 2^w - 1` (all ranges the
enumerator produces), the sum of the extended ranges at width `w + 1` is the
non-wrapping range `[xl + yl, xh + yh - 1)`; its unsigned minimum is `min x + min y`
and its unsigned maximum is `max x + max y`, neither reduced modulo `2^(w+1)`. -/
theorem extended_sum_nonwrapped (w xl xh yl yh : Nat) (hx : xl < xh) (hxh : xh < 2 ^ w)
    (hy : yl < yh) (hyh : yh < 2 ^ w) :
    (extendRangeBitWidth ⟨⟨w, xl⟩, ⟨w, xh⟩⟩).add (extendRangeBitWidth ⟨⟨w, yl⟩, ⟨w, yh⟩⟩) =
        ⟨⟨w + 1, xl + yl⟩, ⟨w + 1, xh + yh - 1⟩⟩ ∧
      xl + yl < xh + yh - 1 ∧ xh + yh - 1 < 2 ^ (w + 1) ∧
      ¬ ((extendRangeBitWidth ⟨⟨w, xl⟩, ⟨w, xh⟩⟩).add
          (extendRangeBitWidth ⟨⟨w, yl⟩, ⟨w, yh⟩⟩)).isUpperWrapped ∧
      ((extendRangeBitWidth ⟨⟨w, xl⟩, ⟨w, xh⟩⟩).add
          (extendRangeBitWidth ⟨⟨w, yl⟩, ⟨w, yh⟩⟩)).getUnsignedMin.VAL =
        (ConstantRange.mk ⟨w, xl⟩ ⟨w, xh⟩).getUnsignedMin.VAL +
          (ConstantRange.mk ⟨w, yl⟩ ⟨w, yh⟩).getUnsignedMin.VAL ∧
      ((extendRangeBitWidth ⟨⟨w, xl⟩, ⟨w, xh⟩⟩).add
          (extendRangeBitWidth ⟨⟨w, yl⟩, ⟨w, yh⟩⟩)).getUnsignedMax.VAL =
        (ConstantRange.mk ⟨w, xl⟩ ⟨w, xh⟩).getUnsignedMax.VAL +
          (ConstantRange.mk ⟨w, yl⟩ ⟨w, yh⟩).getUnsignedMax.VAL := by
  have hpow : 2 ^ (w + 1) = 2 * 2 ^ w := by rw [Nat.pow_succ]; omega
  obtain ⟨h1, h2⟩ := minmax_nonwrapped w xl xh hx hxh
  obtain ⟨h3, h4⟩ := minmax_nonwrapped w yl yh hy hyh
  obtain ⟨h5, h6⟩ := minmax_nonwrapped (w + 1) (xl + yl) (xh + yh - 1) (by omega) (by omega)
  rw [add_extended w xl xh yl yh hx hxh hy hyh, h1, h2, h3, h4, h5, h6]
  refine ⟨rfl, by omega, by omega, ?_, rfl, ?_⟩
  · simp only [ConstantRange.isUpperWrapped]
    omega
  · show xh + yh - 1 - 1 = xh - 1 + (yh - 1)
    omega

/-- Witness of the amended C13 at width 2: `x = [1, 3)`, `y = [0, 2)`. -/
theorem extended_sum_nonwrapped_witness :
    (1 < 3 ∧ 3 < 2 ^ 2 ∧ 0 < 2 ∧ 2 < 2 ^ 2) ∧
      (extendRangeBitWidth ⟨⟨2, 1⟩, ⟨2, 3⟩⟩).add (extendRangeBitWidth ⟨⟨2, 0⟩, ⟨2, 2⟩⟩) =
        ⟨⟨2 + 1, 1 + 0⟩, ⟨2 + 1, 3 + 2 - 1⟩⟩ :=
  ⟨by decide,
    (extended_sum_nonwrapped 2 1 3 0 2 (by decide) (by decide) (by decide) (by decide)).1⟩

/-- C14, as stated, fails for the widths 17 to 31: `total` is a `uint64_t`.  At
width 17 the enumerator returns 8589869056 ranges, the number of ordered pairs
`8589869056^2` exceeds `2^64`, and after the run `total` holds
`8589869056^2 mod 2^64 = 18445618178097676288`, not `|R|^2`. -/
theorem mainLoop_total_wraps_at_width_17 :
    ∃ L : List ConstantRange,
      (∀ fuel, 2 ^ 17 < fuel → getConstantRangesForBitwidth fuel 17 = some L) ∧
      (∀ fuel L', getConstantRangesForBitwidth fuel 17 = some L' → L' = L) ∧
      L.length = 8589869056 ∧
      (mainLoop L).total = 18445618178097676288 ∧
      (mainLoop L).total ≠ L.length * L.length := by
  refine ⟨allRangesSpec 17,
    fun fuel hf => getConstantRangesForBitwidth_eq 17 (by decide) fuel hf,
    fun fuel L' h => getConstantRangesForBitwidth_unique 17 (by decide) fuel L' h,
    length_allRangesSpec_17, ?_, ?_⟩
  · rw [mainLoop_total_mod, length_allRangesSpec_17]
    norm_num
  · rw [mainLoop_total_mod, length_allRangesSpec_17]
    norm_num

/-- C14, amended: the harness runs the loop body once on every ordered pair of
`R × R`, in order, `|R|^2` pairs in all.  After the run `total` is `|R|^2` modulo
`2^64` (the counter is a `uint64_t`), and exactly `|R|^2` whenever `|R|^2 < 2^64`;
that holds for the list the enumerator returns at every width `w ≤ 16`, and at the
reference width 6 the list has 2016 ranges and `total = 2016^2 = 4064256`.  Pairs
counted as incomparable are included, since `total` is incremented before the pair
is classified. -/
theorem mainLoop_total (rangesToTest : List ConstantRange) :
    mainLoop rangesToTest =
        (rangesToTest.flatMap fun x => rangesToTest.map fun y => (x, y)).foldl
          (fun c p => mainBody c p.1 p.2) Counters.zero ∧
      (rangesToTest.flatMap fun x => rangesToTest.map fun y => (x, y)).length =
        rangesToTest.length * rangesToTest.length ∧
      (mainLoop rangesToTest).total = (rangesToTest.length * rangesToTest.length) % 2 ^ 64 ∧
      (rangesToTest.length * rangesToTest.length < 2 ^ 64 →
        (mainLoop rangesToTest).total = rangesToTest.length * rangesToTest.length) ∧
      (∀ w fuel L, w ≤ 16 → getConstantRangesForBitwidth fuel w = some L →
        (mainLoop L).total = L.length * L.length) ∧
      (∃ L, (∀ fuel, 2 ^ 6 < fuel → getConstantRangesForBitwidth fuel 6 = some L) ∧
        L.length = 2016 ∧ (mainLoop L).total = 2016 ^ 2 ∧ (mainLoop L).total = 4064256) := by
  have htot : ∀ R : List ConstantRange, (mainLoop R).total = (R.length * R.length) % 2 ^ 64 :=
    mainLoop_total_mod
  refine ⟨mainOuter_eq_foldl_pairs rangesToTest rangesToTest Counters.zero,
    length_pairs rangesToTest rangesToTest, htot _, fun h => ?_, ?_, ?_⟩
  · rw [htot, Nat.mod_eq_of_lt h]
  · intro w fuel L hw hL
    rw [getConstantRangesForBitwidth_unique w (by omega) fuel L hL, htot]
    apply Nat.mod_eq_of_lt
    obtain ⟨-, hsq⟩ := length_allRangesSpec w
    have hp : 2 ^ w ≤ 65536 := by
      calc 2 ^ w ≤ 2 ^ 16 := Nat.pow_le_pow_right (by norm_num) hw
        _ = 65536 := by norm_num
    have hpp : 2 ^ w * 2 ^ w ≤ 65536 * 65536 := Nat.mul_le_mul hp hp
    have hle : (allRangesSpec w).length * 2 ≤ 2 ^ w * 2 ^ w := by
      rw [← hsq]
      exact Nat.le_add_right _ _
    have hlen : (allRangesSpec w).length ≤ 2147483648 := by omega
    have hll := Nat.mul_le_mul hlen hlen
    calc (allRangesSpec w).length * (allRangesSpec w).length
        ≤ 2147483648 * 2147483648 := hll
      _ < 2 ^ 64 := by norm_num
  · have hlen : (allRangesSpec 6).length = 2016 := by
      obtain ⟨-, hsq⟩ := length_allRangesSpec 6
      norm_num at hsq
      omega
    refine ⟨allRangesSpec 6, fun fuel hf => getConstantRangesForBitwidth_eq 6 (by decide) fuel hf,
      hlen, ?_, ?_⟩
    · rw [htot, hlen]; norm_num
    · rw [htot, hlen]; norm_num

/-- Witness of the amended C14: a run over two ranges of width 2 counts four pairs. -/
theorem mainLoop_total_witness :
    ([ConstantRange.mk ⟨2, 0⟩ ⟨2, 1⟩, ConstantRange.mk ⟨2, 1⟩ ⟨2, 3⟩].length *
        [ConstantRange.mk ⟨2, 0⟩ ⟨2, 1⟩, ConstantRange.mk ⟨2, 1⟩ ⟨2, 3⟩].length < 2 ^ 64) ∧
      (mainLoop [⟨⟨2, 0⟩, ⟨2, 1⟩⟩, ⟨⟨2, 1⟩, ⟨2, 3⟩⟩]).total =
        [ConstantRange.mk ⟨2, 0⟩ ⟨2, 1⟩, ConstantRange.mk ⟨2, 1⟩ ⟨2, 3⟩].length *
          [ConstantRange.mk ⟨2, 0⟩ ⟨2, 1⟩, ConstantRange.mk ⟨2, 1⟩ ⟨2, 3⟩].length :=
  ⟨by decide, (mainLoop_total [⟨⟨2, 0⟩, ⟨2, 1⟩⟩, ⟨⟨2, 1⟩, ⟨2, 3⟩⟩]).2.2.2.1 (by decide)⟩

/-- C15: the clamp bound is not `2^w - 1` at width 32.  The `int` value `1 << 31` is
negative and sign-extends when OR-ed into the 64-bit accumulator, so `maxVal` is
`2^64 - 1` (the 32-bit accumulator of the enumerator holds `2^32 - 1`).  With it
`decomposedUaddSat` does not clamp: for `x = {2^32 - 2}` and `y = {2}` it returns
`{0}`, while the reference result is `{2^32 - 1}`. -/
theorem maxValUInt64_32_not_clamp_bound :
    toUInt64 (shl1 31) = 2 ^ 64 - 2 ^ 31 ∧
      maxValUInt64 32 = 2 ^ 64 - 1 ∧
      maxValUInt64 32 ≠ 2 ^ 32 - 1 ∧
      maxValUnsigned 32 = 2 ^ 32 - 1 ∧
      decomposedUaddSat ⟨⟨32, 2 ^ 32 - 2⟩, ⟨32, 2 ^ 32 - 1⟩⟩ ⟨⟨32, 2⟩, ⟨32, 3⟩⟩ =
        ConstantRange.single ⟨32, 0⟩ ∧
      ConstantRange.uadd_sat ⟨⟨32, 2 ^ 32 - 2⟩, ⟨32, 2 ^ 32 - 1⟩⟩ ⟨⟨32, 2⟩, ⟨32, 3⟩⟩ =
        ConstantRange.single ⟨32, 2 ^ 32 - 1⟩ := by
  decide

/-- C16: for a bit width `w ≤ 31` (in particular `1 ≤ w ≤ 31`) and every pair
`(x, y)` of ranges the enumerator returns, every `w`-bit value contained in
`decomposedUaddSat x y` is contained in the reference result `x.uadd_sat y`; the
decomposed result is not empty (it contains `min (xl + yl) (2^w - 1)`). -/
theorem decomposedUaddSat_subset_uadd_sat (w : Nat) (h31 : w ≤ 31) :
    ∃ R : List ConstantRange,
      (∀ fuel, 2 ^ w < fuel → getConstantRangesForBitwidth fuel w = some R) ∧
      (∀ fuel R', getConstantRangesForBitwidth fuel w = some R' → R' = R) ∧
      (∀ x y, x ∈ R → y ∈ R → ∀ v, v < 2 ^ w →
        (decomposedUaddSat x y).contains (mkAPInt w v) →
          (x.uadd_sat y).contains (mkAPInt w v)) ∧
      (∀ x y, x ∈ R → y ∈ R →
        (decomposedUaddSat x y).contains
          (mkAPInt w (min (x.Lower.VAL + y.Lower.VAL) (2 ^ w - 1)))) := by
  refine ⟨allRangesSpec w, fun fuel hf => getConstantRangesForBitwidth_eq w h31 fuel hf,
    fun fuel R' h => getConstantRangesForBitwidth_unique w h31 fuel R' h, ?_, ?_⟩
  · intro x y hx hy v hv hdec
    rw [mem_allRangesSpec] at hx hy
    obtain ⟨xl, xh, hx1, hx2, rfl⟩ := hx
    obtain ⟨yl, yh, hy1, hy2, rfl⟩ := hy
    obtain ⟨-, -, -, -, -, hU, hD⟩ :=
      results_nonwrapped w xl xh yl yh h31 hx1 (by omega) hy1 (by omega)
    rw [mkAPInt_of_lt w v hv] at hdec ⊢
    have hd := (hD v hv).mp hdec
    refine (hU v hv).mpr ⟨hd.1, ?_⟩
    rcases hd.2 with h | ⟨h, -⟩
    · exact Nat.le_of_lt h
    · exact Nat.le_of_eq h
  · intro x y hx hy
    rw [mem_allRangesSpec] at hx hy
    obtain ⟨xl, xh, hx1, hx2, rfl⟩ := hx
    obtain ⟨yl, yh, hy1, hy2, rfl⟩ := hy
    obtain ⟨hLU, -, -, -, -, -, hD⟩ :=
      results_nonwrapped w xl xh yl yh h31 hx1 (by omega) hy1 (by omega)
    have hL : min (xl + yl) (2 ^ w - 1) < 2 ^ w := by omega
    rw [mkAPInt_of_lt w _ hL]
    refine (hD _ hL).mpr ⟨Nat.le_refl _, ?_⟩
    rcases Nat.lt_or_ge (min (xl + yl) (2 ^ w - 1)) (min (xh + yh - 2) (2 ^ w - 1)) with h | h
    · exact Or.inl h
    · exact Or.inr ⟨Nat.le_antisymm hLU h, Nat.le_antisymm hLU h⟩

/-- Witness of C16 at width 2. -/
theorem decomposedUaddSat_subset_uadd_sat_witness :
    2 ≤ 31 ∧ ∃ R : List ConstantRange,
      (∀ fuel, 2 ^ 2 < fuel → getConstantRangesForBitwidth fuel 2 = some R) ∧
      (∀ fuel R', getConstantRangesForBitwidth fuel 2 = some R' → R' = R) ∧
      (∀ x y, x ∈ R → y ∈ R → ∀ v, v < 2 ^ 2 →
        (decomposedUaddSat x y).contains (mkAPInt 2 v) →
          (x.uadd_sat y).contains (mkAPInt 2 v)) ∧
      (∀ x y, x ∈ R → y ∈ R →
        (decomposedUaddSat x y).contains
          (mkAPInt 2 (min (x.Lower.VAL + y.Lower.VAL) (2 ^ 2 - 1)))) :=
  ⟨by decide, decomposedUaddSat_subset_uadd_sat 2 (by decide)⟩

/-- C17: for a bit width `w ≤ 31` (in particular `1 ≤ w ≤ 31`) and every pair
`x = [xl, xh)`, `y = [yl, yh)` the enumerator returns, with
`L = min (xl + yl) (2^w - 1)` and `U = min (xh + yh - 2) (2^w - 1)` (so `L ≤ U`), the
loop body increments `total` and `numEqual` when `L = U` and `total` and
`numDecomposedBetter` when `L < U`; it never increments `numIncomparable` or
`numDecomposedWorse`, and both are 0 at the end of the run. -/
theorem mainLoop_classification (w : Nat) (h31 : w ≤ 31) :
    ∃ R : List ConstantRange,
      (∀ fuel, 2 ^ w < fuel → getConstantRangesForBitwidth fuel w = some R) ∧
      (∀ fuel R', getConstantRangesForBitwidth fuel w = some R' → R' = R) ∧
      (∀ x y, x ∈ R → y ∈ R →
        min (x.Lower.VAL + y.Lower.VAL) (2 ^ w - 1) ≤
          min (x.Upper.VAL + y.Upper.VAL - 2) (2 ^ w - 1)) ∧
      (∀ x y, x ∈ R → y ∈ R →
        min (x.Lower.VAL + y.Lower.VAL) (2 ^ w - 1) =
          min (x.Upper.VAL + y.Upper.VAL - 2) (2 ^ w - 1) →
        ∀ c, mainBody c x y =
          { c with total := incr64 c.total, numEqual := incr64 c.numEqual }) ∧
      (∀ x y, x ∈ R → y ∈ R →
        min (x.Lower.VAL + y.Lower.VAL) (2 ^ w - 1) <
          min (x.Upper.VAL + y.Upper.VAL - 2) (2 ^ w - 1) →
        ∀ c, mainBody c x y =
          { c with total := incr64 c.total,
                   numDecomposedBetter := incr64 c.numDecomposedBetter }) ∧
      (mainLoop R).numIncomparable = 0 ∧ (mainLoop R).numDecomposedWorse = 0 := by
  refine ⟨allRangesSpec w, fun fuel hf => getConstantRangesForBitwidth_eq w h31 fuel hf,
    fun fuel R' h => getConstantRangesForBitwidth_unique w h31 fuel R' h, ?_, ?_, ?_, ?_⟩
  · intro x y hx hy
    rw [mem_allRangesSpec] at hx hy
    obtain ⟨xl, xh, hx1, hx2, rfl⟩ := hx
    obtain ⟨yl, yh, hy1, hy2, rfl⟩ := hy
    show min (xl + yl) (2 ^ w - 1) ≤ min (xh + yh - 2) (2 ^ w - 1)
    omega
  · intro x y hx hy hLU c
    rw [mainBody_enumerated w h31 x y hx hy c, if_pos hLU]
  · intro x y hx hy hLU c
    rw [mainBody_enumerated w h31 x y hx hy c, if_neg (Nat.ne_of_lt hLU)]
  · exact mainOuter_enumerated_keeps w h31 (allRangesSpec w) (fun _ h => h) (allRangesSpec w)
      Counters.zero (fun _ h => h)

/-- Witness of C17 at width 2. -/
theorem mainLoop_classification_witness :
    2 ≤ 31 ∧ ∃ R : List ConstantRange,
      (∀ fuel, 2 ^ 2 < fuel → getConstantRangesForBitwidth fuel 2 = some R) ∧
      (∀ fuel R', getConstantRangesForBitwidth fuel 2 = some R' → R' = R) ∧
      (∀ x y, x ∈ R → y ∈ R →
        min (x.Lower.VAL + y.Lower.VAL) (2 ^ 2 - 1) ≤
          min (x.Upper.VAL + y.Upper.VAL - 2) (2 ^ 2 - 1)) ∧
      (∀ x y, x ∈ R → y ∈ R →
        min (x.Lower.VAL + y.Lower.VAL) (2 ^ 2 - 1) =
          min (x.Upper.VAL + y.Upper.VAL - 2) (2 ^ 2 - 1) →
        ∀ c, mainBody c x y =
          { c with total := incr64 c.total, numEqual := incr64 c.numEqual }) ∧
      (∀ x y, x ∈ R → y ∈ R →
        min (x.Lower.VAL + y.Lower.VAL) (2 ^ 2 - 1) <
          min (x.Upper.VAL + y.Upper.VAL - 2) (2 ^ 2 - 1) →
        ∀ c, mainBody c x y =
          { c with total := incr64 c.total,
                   numDecomposedBetter := incr64 c.numDecomposedBetter }) ∧
      (mainLoop R).numIncomparable = 0 ∧ (mainLoop R).numDecomposedWorse = 0 :=
  ⟨by decide, mainLoop_classification 2 (by decide)⟩

/-- C18: `getAbstractValueForSet w []` is the empty range; for `w ≤ 64` and a
non-empty list `vs` of `w`-bit values whose largest element `m` is below `2^w - 1`,
`getAbstractValueForSet w vs` is the range `[0, m + 1)`: its lower bound is 0
whatever the smallest element is, and it contains every element of `vs`. -/
theorem getAbstractValueForSet_spec (w m : Nat) (vs : List APInt) (hw : w ≤ 64)
    (hne : vs ≠ []) (hbits : ∀ x, x ∈ vs → x.BitWidth = w ∧ x.VAL < 2 ^ w)
    (hmax : ∀ x, x ∈ vs → x.VAL ≤ m) (hm : ∃ x, x ∈ vs ∧ x.VAL = m) (hlt : m < 2 ^ w - 1) :
    getAbstractValueForSet w [] = ConstantRange.getEmpty w ∧
      getAbstractValueForSet w vs = ⟨⟨w, 0⟩, ⟨w, m + 1⟩⟩ ∧
      (getAbstractValueForSet w vs).Lower = ⟨w, 0⟩ ∧
      ∀ x, x ∈ vs → (getAbstractValueForSet w vs).contains x := by
  have hp : 2 ^ w ≤ 2 ^ 64 := Nat.pow_le_pow_right (by norm_num) hw
  have heq : getAbstractValueForSet w vs = ⟨⟨w, 0⟩, ⟨w, m + 1⟩⟩ := by
    obtain ⟨h1, h2, h3, h4⟩ := getAbstractValueForSet_loop vs 0 _ rfl
    have hem : vs.isEmpty = false := by
      cases vs with
      | nil => exact absurd rfl hne
      | cons _ _ => rfl
    obtain ⟨xm, hxm, hxme⟩ := hm
    have hle : m ≤ _ := hxme ▸ h3 xm hxm
    have hge : ∀ k, (k = 0 ∨ ∃ x, x ∈ vs ∧ x.VAL = k) → k ≤ m := by
      rintro k (rfl | ⟨x, hx, rfl⟩)
      · exact Nat.zero_le _
      · exact hmax x hx
    have hval := Nat.le_antisymm (hge _ h4) hle
    simp only [getAbstractValueForSet, hem, Bool.false_eq_true, if_false, h1, hval]
    rw [Nat.mod_eq_of_lt (by omega : m + 1 < 2 ^ 64), mkAPInt_of_lt w 0 (by omega),
      mkAPInt_of_lt w (m + 1) (by omega)]
  refine ⟨rfl, heq, ?_, ?_⟩
  · rw [heq]
  · intro x hx
    rw [heq]
    have h1 := hmax x hx
    have hne' : (0 : Nat) ≠ m + 1 := by omega
    have hnu : ¬ m + 1 < 0 := by omega
    simp only [ConstantRange.contains, ConstantRange.isUpperWrapped, hne', hnu, if_false,
      not_false_eq_true, if_true]
    omega

/-- Witness of C18 at width 3: the values 5 and 2 give `[0, 6)`. -/
theorem getAbstractValueForSet_spec_witness :
    (3 ≤ 64 ∧ ([⟨3, 5⟩, ⟨3, 2⟩] : List APInt) ≠ [] ∧ 5 < 2 ^ 3 - 1) ∧
      getAbstractValueForSet 3 [⟨3, 5⟩, ⟨3, 2⟩] = ⟨⟨3, 0⟩, ⟨3, 5 + 1⟩⟩ :=
  ⟨by decide,
    (getAbstractValueForSet_spec 3 5 [⟨3, 5⟩, ⟨3, 2⟩] (by decide) (by decide) (by decide)
      (by decide) (by decide) (by decide)).2.1⟩
